import Mathlib

/-!
Shallow embedding of the conversation-conversion pipeline core
(parser.js, content-handlers.js, splitter.js, the topic clusterer and the
output-path organizer), together with proofs settling the frozen claims.

Embedding conventions:
* JS objects become structures whose optional/nullable fields are `Option`s;
  JSON `null` and an absent field are both `none` (the code only ever
  distinguishes them through truthiness or `== null`, which identifies them).
* JS string truthiness (`x || d`) is `jsOrStr`; a JS `Set` built by insertion
  is a first-occurrence-deduplicated list (`dedupFirst`).
* The two unbounded `while` loops of the tree traversal receive explicit fuel
  `mapping.length`, which is enough for every tree-shaped mapping (the loops
  step through pairwise-distinct nodes); on cyclic inputs the JS loops do not
  terminate at all, so no claim concerns them.
* String indices are code points (JS uses UTF-16 units); string lengths are
  code-point counts.  No claim distinguishes the two.
* `Math.log` (transcendental, used only inside the TF-IDF score that ranks
  keywords) is a parameter `logf : ℚ → ℚ`; every theorem about the clusterer
  is quantified over it, and floating-point rounding plays no role in any
  claimed property.
-/

/-- JS `x || d` on an optional string field: `null`, `undefined` and `""` are
falsy and fall through to the default. -/
def jsOrStr : Option String → String → String
  | none, d => d
  | some s, d => if s = "" then d else s

/-- First-occurrence deduplication: the observable content of a JS `Set`
populated by iterating a list. -/
def dedupFirst (l : List String) : List String :=
  l.foldl (fun acc x => if x ∈ acc then acc else acc ++ [x]) []

/-- Prefix test on character lists (kernel-friendly replacement for
`List.isPrefixOf`). -/
def chPre : List Char → List Char → Bool
  | [], _ => true
  | _ :: _, [] => false
  | a :: as, b :: bs => a == b && chPre as bs

/-- JS `\s` on the characters that can appear here (the exotic Unicode spaces
also in `\s` never arise in the claims). -/
def jsWs (c : Char) : Bool :=
  decide (c ∈ [' ', '\t', '\n', '\r']) || decide (c.toNat = 11) || decide (c.toNat = 12)

/-- JS `String.prototype.trim` on a character list. -/
def trimEnds (l : List Char) : List Char :=
  ((l.dropWhile jsWs).reverse.dropWhile jsWs).reverse

/-- JS `String.prototype.trim` (structural replacement for `String.trim`,
whose core implementation does not reduce in the kernel). -/
def jsTrim (s : String) : String := (trimEnds s.toList).asString

/-- JS `String.prototype.toLowerCase` on the ASCII range. -/
def jsToLower (s : String) : String := (s.toList.map Char.toLower).asString

/-- Decimal digit-run parse. -/
def digitsToNat : List Char → Option Nat
  | [] => none
  | cs =>
    cs.foldl
      (fun acc c =>
        match acc with
        | none => none
        | some n => if c.isDigit then some (n * 10 + (c.toNat - 48)) else none)
      (some 0)

/-- Integer numeral parse (the sign-and-digits core of JS numeric strings). -/
def chToInt : List Char → Option Int
  | [] => none
  | '-' :: rest => (digitsToNat rest).map (fun n => -(n : Int))
  | '+' :: rest => (digitsToNat rest).map (fun n => (n : Int))
  | cs => (digitsToNat cs).map (fun n => (n : Int))

/-- JS `String.prototype.includes`. -/
def strHas (s pat : String) : Bool :=
  (List.range (s.toList.length + 1)).any fun i => chPre pat.toList (s.toList.drop i)

/-! ## content-handlers.js -/

/-- A normalized content fragment (the plain objects pushed by the handlers in
content-handlers.js).  Fields a handler does not set are `none`. -/
structure Fragment where
  contentType : String
  text : String
  language : Option String
  imageRef : Option String
  title : Option String
  url : Option String
deriving Repr, DecidableEq

/-- A fragment carrying only `contentType` and `text`. -/
def mkFrag (ct t : String) : Fragment := ⟨ct, t, none, none, none, none⟩

/-- A structured (object) entry of a content `parts` array. -/
structure StructuredPart where
  content_type : Option String
  asset_pointer : Option String
  name : Option String
  text : Option String
deriving Repr, DecidableEq

/-- One entry of `content.parts`: a string, an object, or JSON `null`
(JS `typeof null === 'object'` but the handlers test `p !== null`). -/
inductive RawPart where
  | str (s : String)
  | obj (p : StructuredPart)
  | null
deriving Repr, DecidableEq

/-- A raw message content payload (`message.content`). -/
structure RawContent where
  content_type : Option String
  parts : Option (List RawPart)
  text : Option String
  language : Option String
  result : Option String
  title : Option String
  url : Option String
deriving Repr, DecidableEq

/-- The all-absent content payload (JS `{}`). -/
def emptyContent : RawContent := ⟨none, none, none, none, none, none, none⟩

/-- content-handlers.js `handleStructuredPart`. -/
def handleStructuredPart (part : StructuredPart) : List Fragment :=
  let ct := jsOrStr part.content_type ""
  if strHas ct "image" then
    let pointer := jsOrStr part.asset_pointer ""
    [⟨"text", if pointer = "" then "[Image]" else "[Image: " ++ pointer ++ "]",
      none, if pointer = "" then none else some pointer, none, none⟩]
  else if ct == "file" || strHas ct "file" then
    [mkFrag "text" ("[File: " ++ jsOrStr part.name "unnamed_file" ++ "]")]
  else if jsOrStr part.text "" ≠ "" then
    [mkFrag "text" (jsOrStr part.text "")]
  else []

/-- The shared per-part loop of `handleText` / `handleMultimodalText`
(their JS bodies are character-for-character identical). -/
def handlePartsLoop : List RawPart → List Fragment
  | [] => []
  | .str s :: rest =>
    if jsTrim s ≠ "" then mkFrag "text" s :: handlePartsLoop rest else handlePartsLoop rest
  | .obj p :: rest => handleStructuredPart p ++ handlePartsLoop rest
  | .null :: rest => handlePartsLoop rest

/-- content-handlers.js `handleText`. -/
def handleText (content : RawContent) : List Fragment :=
  handlePartsLoop (content.parts.getD [])

/-- content-handlers.js `handleMultimodalText` (same body as `handleText`). -/
def handleMultimodalText (content : RawContent) : List Fragment :=
  handlePartsLoop (content.parts.getD [])

/-- content-handlers.js `handleCode`. -/
def handleCode (content : RawContent) : List Fragment :=
  [⟨"code", jsOrStr content.text "", some (jsOrStr content.language "python"),
    none, none, none⟩]

/-- content-handlers.js `handleExecutionOutput`. -/
def handleExecutionOutput (content : RawContent) : List Fragment :=
  let output := jsOrStr content.text ""
  if output = "" then [] else [mkFrag "execution_output" output]

/-- content-handlers.js `handleBrowsingDisplay`. -/
def handleBrowsingDisplay (content : RawContent) : List Fragment :=
  let res := jsOrStr content.result ""
  if res = "" then [] else [mkFrag "tether_browsing_display" res]

/-- content-handlers.js `handleBrowsingQuote` (always one fragment, carrying
title/url/text, each possibly empty). -/
def handleBrowsingQuote (content : RawContent) : List Fragment :=
  [⟨"tether_quote", jsOrStr content.text "", none, none,
    some (jsOrStr content.title ""), some (jsOrStr content.url "")⟩]

/-- The unknown-string-parts loop of `handleUnknown`. -/
def unknownPartsLoop : List RawPart → List Fragment
  | [] => []
  | .str s :: rest =>
    if jsTrim s ≠ "" then mkFrag "unknown" s :: unknownPartsLoop rest else unknownPartsLoop rest
  | .obj _ :: rest => unknownPartsLoop rest
  | .null :: rest => unknownPartsLoop rest

/-- content-handlers.js `handleUnknown` (best-effort fallback). -/
def handleUnknown (content : RawContent) : List Fragment :=
  let text := jsOrStr content.text ""
  let parts := content.parts.getD []
  let ctName := jsOrStr content.content_type "unknown"
  let res :=
    if text ≠ "" then [mkFrag "unknown" text]
    else if parts.length ≠ 0 then unknownPartsLoop parts
    else []
  if res.length = 0 then [mkFrag "unknown" ("[Unsupported content type: " ++ ctName ++ "]")]
  else res

/-- content-handlers.js `renderContent`: dispatch on the declared content type
(the JS `HANDLERS` lookup table, written as a decision chain). -/
def renderContent (rawContent : RawContent) : List Fragment :=
  let contentType := jsOrStr rawContent.content_type "text"
  if contentType == "text" then handleText rawContent
  else if contentType == "code" then handleCode rawContent
  else if contentType == "execution_output" then handleExecutionOutput rawContent
  else if contentType == "tether_browsing_display" then handleBrowsingDisplay rawContent
  else if contentType == "tether_quote" then handleBrowsingQuote rawContent
  else if contentType == "multimodal_text" then handleMultimodalText rawContent
  else handleUnknown rawContent

/-! ## parser.js -/

/-- A JS value reaching `parseTimestamp`: `null`, `undefined`, a number
(epoch seconds; the claims never involve fractional seconds, so integers), or
a string. -/
inductive JsTime where
  | null
  | undef
  | num (n : Int)
  | str (s : String)
deriving Repr, DecidableEq

/-- A JS `Date`: either a valid instant (milliseconds since the epoch) or the
Invalid Date produced by `new Date(NaN)`. -/
inductive JsDate where
  | invalid
  | epochMs (ms : Int)
deriving Repr, DecidableEq

/-- JS `Number(x)` on the values above; `none` models `NaN`.  `Number(null)`
is `0`, `Number(undefined)` is `NaN`, strings are trimmed and parsed
(`Number("")` is `0`); a string that is not an integer numeral is `NaN` here,
a harmless restriction of JS numeric-string parsing. -/
def jsToNumber : JsTime → Option Int
  | .null => some 0
  | .undef => none
  | .num n => some n
  | .str s => if jsTrim s = "" then some 0 else chToInt (jsTrim s).toList

/-- parser.js `parseTimestamp`.  `ts == null` (loose) catches both `null` and
`undefined`; otherwise `new Date(Number(ts) * 1000)` never throws, producing
an Invalid Date when `Number(ts)` is `NaN` (the `catch` branch is dead code).
Totality of this function is the embedding of "never throws". -/
def parseTimestamp : JsTime → Option JsDate
  | .null => none
  | .undef => none
  | t =>
    match jsToNumber t with
    | none => some .invalid
    | some n => some (.epochMs (n * 1000))

/-- `message.author`. -/
structure RawAuthor where
  role : Option String
deriving Repr, DecidableEq

/-- `message.metadata` (the fields the pipeline reads). -/
structure RawMetadata where
  is_user_system_message : Option Bool
  model_slug : Option String
  model : Option String
deriving Repr, DecidableEq

/-- A raw message embedded in a mapping node. -/
structure RawMessage where
  id : Option String
  author : Option RawAuthor
  content : Option RawContent
  metadata : Option RawMetadata
  create_time : JsTime
deriving Repr, DecidableEq

/-- One entry of the conversation mapping. -/
structure RawNode where
  parent : Option String
  children : Option (List String)
  message : Option RawMessage
deriving Repr, DecidableEq

/-- The raw mapping: a JS object keyed by node id, as an insertion-ordered
association list (JSON-parsed objects have pairwise-distinct keys). -/
abbrev Mapping := List (String × RawNode)

/-- JS property read `mapping[k]` (first matching key). -/
def lookup : Mapping → String → Option RawNode
  | [], _ => none
  | (k', n) :: rest, k => if k' = k then some n else lookup rest k

/-- parser.js `traverseTree` step 1: the first entry whose `parent == null`. -/
def findRoot : Mapping → Option String
  | [] => none
  | (k, n) :: rest => if n.parent = none then some k else findRoot rest

/-- JS `node.children || []`. -/
def childrenOf (n : RawNode) : List String := n.children.getD []

/-- parser.js `traverseTree` step 2: walk forward repeatedly taking the last
child until a node has no children (fueled form of the JS `while (true)`). -/
def walkToLeaf (m : Mapping) : Nat → String → String
  | 0, cur => cur
  | fuel + 1, cur =>
    match lookup m cur with
    | none => cur
    | some n =>
      match childrenOf n with
      | [] => cur
      | c :: cs => walkToLeaf m fuel ((c :: cs).getLast (by simp))

/-- JS `(msg.author || {}).role || ''`. -/
def roleOfMsg (msg : RawMessage) : String :=
  jsOrStr (msg.author.bind RawAuthor.role) ""

/-- JS `(msg.metadata || {}).is_user_system_message || false`. -/
def userSysFlag (msg : RawMessage) : Bool :=
  (msg.metadata.bind RawMetadata.is_user_system_message).getD false

/-- One step of the JS `parts.some(...)` test: a string part with non-blank
trim, or any non-null object part. -/
def partHasContent : RawPart → Bool
  | .str s => jsTrim s ≠ ""
  | .obj _ => true
  | .null => false

/-- The content-shaped drop rules of `traverseTree`: skip messages whose
content is absent or has no `parts` array, and text-type messages all of whose
parts are blank.  (`parts: []` is a present, truthy array in JS.) -/
def msgContentOk (msg : RawMessage) : Bool :=
  match msg.content with
  | none => false
  | some c =>
    match c.parts with
    | none => false
    | some parts =>
      let hasContent := parts.any partHasContent
      !(!hasContent && c.content_type == some "text")

/-- The full keep/skip decision applied to a node's message during the
backward walk of `traverseTree` (system-without-flag and tool messages are
dropped, then the content rules apply). -/
def keepMessage (msg : RawMessage) : Bool :=
  let role := roleOfMsg msg
  if role == "system" && !userSysFlag msg then false
  else if role == "tool" then false
  else msgContentOk msg

/-- parser.js `traverseTree` step 3: walk backward via parent pointers from
the leaf, collecting (leaf-first) every kept message; fueled form of the JS
`while (currentId != null)`. -/
def walkBack (m : Mapping) : Nat → Option String → List RawMessage
  | _, none => []
  | 0, some _ => []
  | fuel + 1, some cur =>
    match lookup m cur with
    | none => []
    | some n =>
      match n.message with
      | none => walkBack m fuel n.parent
      | some msg =>
        if keepMessage msg then msg :: walkBack m fuel n.parent
        else walkBack m fuel n.parent

/-- parser.js `traverseTree`: root, forward walk, backward walk, reverse. -/
def traverseTree (m : Mapping) : List RawMessage :=
  if m.length = 0 then []
  else
    match findRoot m with
    | none => []
    | some rootId => (walkBack m m.length (some (walkToLeaf m m.length rootId))).reverse

/-- parser.js `VALID_ROLES`. -/
def VALID_ROLES : List String := ["user", "assistant", "system", "tool"]

/-- The parsed message produced by parser.js `parseMessage`. -/
structure Message where
  id : String
  authorRole : String
  contentParts : List Fragment
  createdAt : Option JsDate
  modelSlug : Option String
deriving Repr, DecidableEq

/-- parser.js `parseMessage` (total: always returns a message object, so the
JS `.filter(Boolean)` after it keeps everything). -/
def parseMessage (raw : RawMessage) : Message :=
  let roleStr := jsOrStr (raw.author.bind RawAuthor.role) "user"
  { id := jsOrStr raw.id ""
    authorRole := if roleStr ∈ VALID_ROLES then roleStr else "user"
    contentParts := renderContent (raw.content.getD emptyContent)
    createdAt := parseTimestamp raw.create_time
    modelSlug :=
      match jsOrStr (raw.metadata.bind RawMetadata.model_slug)
              (jsOrStr (raw.metadata.bind RawMetadata.model) "") with
      | "" => none
      | s => some s }

/-- The parsed conversation produced by parser.js `parseConversations`
(full, non-metadata mode; `modelSlugs` is a JS `Set` as an insertion-ordered
deduplicated list). -/
structure Conversation where
  id : String
  title : String
  createdAt : Option JsDate
  updatedAt : Option JsDate
  messages : List Message
  modelSlugs : List String
deriving Repr, DecidableEq

/-- JS `new Set(messages.filter(m => m.modelSlug).map(m => m.modelSlug))`
(written identically in parser.js and splitter.js `makePart`; `m.modelSlug`
is truthy iff it is a non-empty string). -/
def slugsOf (messages : List Message) : List String :=
  dedupFirst (messages.filterMap fun mg =>
    match mg.modelSlug with
    | some s => if s = "" then none else some s
    | none => none)

/-- parser.js `traverseAndParse`. -/
def traverseAndParse (mapping : Mapping) : List Message :=
  if mapping.length = 0 then []
  else (traverseTree mapping).map parseMessage

/-- One raw conversation record of the input array. -/
structure RawConv where
  id : Option String
  title : Option String
  create_time : JsTime
  update_time : JsTime
  mapping : Option Mapping
deriving Repr, DecidableEq

/-- The per-record body of the `parseConversations` loop (full,
non-`metadataOnly` mode). -/
def parseOneConv (rawConv : RawConv) : Conversation :=
  let messages := traverseAndParse (rawConv.mapping.getD [])
  { id := jsOrStr rawConv.id ""
    title := jsOrStr rawConv.title "Untitled"
    createdAt := parseTimestamp rawConv.create_time
    updatedAt := parseTimestamp rawConv.update_time
    messages := messages
    modelSlugs := slugsOf messages }

/-- parser.js `parseConversations` in full (non-`metadataOnly`) mode; the
lightweight metadata branch is touched by no claim and is omitted. -/
def parseConversations (rawData : List RawConv) : List Conversation :=
  rawData.map parseOneConv

/-! ## splitter.js -/

/-- splitter.js `OVERHEAD_PER_MSG`. -/
def OVERHEAD_PER_MSG : Nat := 50

/-- The per-message cost estimate of `splitAtMessages`:
`msg.contentParts.reduce((sum, p) => sum + (p.text || '').length, 0) + 50`. -/
def msgSize (msg : Message) : Nat :=
  msg.contentParts.foldl (fun sum p => sum + p.text.length) 0 + OVERHEAD_PER_MSG

/-- splitter.js `makePart`. -/
def makePart (original : Conversation) (messages : List Message) (partNum : Nat) : Conversation :=
  { id := original.id ++ "_part" ++ toString partNum
    title := original.title ++ " (Part " ++ toString partNum ++ ")"
    createdAt := original.createdAt
    updatedAt := original.updatedAt
    messages := messages
    modelSlugs := slugsOf messages }

/-- The message loop of splitter.js `splitAtMessages`: greedy accumulation
with a flush when the next message would overflow a non-empty current part. -/
def splitLoop (conversation : Conversation) (maxSize : Nat) :
    List Message → List Message → Nat → Nat → List Conversation
  | [], cur, _, partNum =>
    if cur = [] then [] else [makePart conversation cur partNum]
  | msg :: rest, cur, curSize, partNum =>
    let s := msgSize msg
    if maxSize < curSize + s ∧ cur ≠ [] then
      makePart conversation cur partNum :: splitLoop conversation maxSize rest [msg] s (partNum + 1)
    else
      splitLoop conversation maxSize rest (cur ++ [msg]) (curSize + s) partNum

/-- splitter.js `splitAtMessages`. -/
def splitAtMessages (conversation : Conversation) (maxSize : Nat) : List Conversation :=
  if conversation.messages = [] then [conversation]
  else
    let parts := splitLoop conversation maxSize conversation.messages [] 0 1
    if parts.length = 1 then [conversation] else parts

/-! ## organizer (sanitizeFilename / deduplicatePath) -/

/-- JS `\w`: ASCII letters, digits, underscore. -/
def wordChar (c : Char) : Bool :=
  decide ((97 ≤ c.toNat ∧ c.toNat ≤ 122) ∨ (65 ≤ c.toNat ∧ c.toNat ≤ 90) ∨
          (48 ≤ c.toNat ∧ c.toNat ≤ 57) ∨ c.toNat = 95)

/-- The character class `[<>:"/\\|?*\x00-\x1f]` removed by step 1. -/
def forbiddenChar (c : Char) : Bool :=
  decide (c ∈ ['<', '>', ':', '"', '/', '\\', '|', '?', '*']) || decide (c.toNat ≤ 31)

/-- Replace each maximal whitespace run with a single underscore
(`.replace(/\s+/g, '_')`); the flag records whether the previous character was
whitespace. -/
def collapseWsGo : Bool → List Char → List Char
  | _, [] => []
  | prevWs, c :: rest =>
    if jsWs c then
      if prevWs then collapseWsGo true rest else '_' :: collapseWsGo true rest
    else c :: collapseWsGo false rest

/-- The class `[._]` stripped from the ends by step 4. -/
def dotUnd (c : Char) : Bool := c == '.' || c == '_'

/-- organizer `sanitizeFilename` (the JS default `maxLength = 100` is passed
explicitly by callers here). -/
def sanitizeFilename (title : String) (maxLength : Nat) : String :=
  let s1 := title.toList.filter (fun c => !forbiddenChar c)
  let s2 := collapseWsGo false (trimEnds s1)
  let s3 := s2.filter (fun c => wordChar c || c == '-' || c == '.')
  let s4 := ((s3.dropWhile dotUnd).reverse.dropWhile dotUnd).reverse
  let s5 := if s4 = [] then "untitled".toList else s4
  (s5.take maxLength).asString

/-- JS `Map.get`. -/
def assocGet : List (String × Nat) → String → Option Nat
  | [], _ => none
  | (k', v) :: rest, k => if k' = k then some v else assocGet rest k

/-- JS `Map.set` (functional update). -/
def assocSet : List (String × Nat) → String → Nat → List (String × Nat)
  | [], k, v => [(k, v)]
  | (k', v') :: rest, k, v =>
    if k' = k then (k', v) :: rest else (k', v') :: assocSet rest k v

/-- Index of the first `'.'` of a character list. -/
def revDotIdx : List Char → Option Nat
  | [] => none
  | c :: rest => if c == '.' then some 0 else (revDotIdx rest).map (· + 1)

/-- JS `path.lastIndexOf('.')` as an optional code-point index (the first
dot of the reversal). -/
def lastDotIdx (cs : List Char) : Option Nat :=
  match revDotIdx cs.reverse with
  | none => none
  | some i => some (cs.length - 1 - i)

/-- The suffix-insertion arm of `deduplicatePath`: `_count` goes before the
last dot when `dotIdx > 0`, else it is appended. -/
def insertSuffix (path : String) (count : Nat) : String :=
  let cs := path.toList
  match lastDotIdx cs with
  | some i =>
    if 0 < i then (cs.take i ++ ("_" ++ toString count).toList ++ cs.drop i).asString
    else path ++ "_" ++ toString count
  | none => path ++ "_" ++ toString count

/-- organizer `deduplicatePath`: case-insensitive key, count `0` on first
registration, incremented suffixed names afterwards.  The JS mutates the map
in place; here the updated map is returned. -/
def deduplicatePath (path : String) (usedPaths : List (String × Nat)) :
    String × List (String × Nat) :=
  let key := jsToLower path
  match assocGet usedPaths key with
  | some c =>
    let count := c + 1
    (insertSuffix path count, assocSet usedPaths key count)
  | none => (path, assocSet usedPaths key 0)

/-- A sequence of registrations against one (initially empty) map, as every
caller of `deduplicatePath` performs them. -/
def registerGo (used : List (String × Nat)) : List String → List String
  | [] => []
  | p :: rest =>
    let r := deduplicatePath p used
    r.1 :: registerGo r.2 rest

/-- The outputs of registering a whole list of paths in order. -/
def registerAll (ps : List String) : List String := registerGo [] ps

/-! ## topic clusterer -/

/-- The clusterer's stopword set (duplicates in the source literal are
harmless for membership). -/
def STOPWORDS : List String :=
  ["a","about","above","after","again","against","all","am","an","and","any","are","as","at",
   "be","because","been","before","being","below","between","both","but","by","can","could",
   "did","do","does","doing","down","during","each","few","for","from","further","get","got",
   "had","has","have","having","he","her","here","hers","herself","him","himself","his","how",
   "i","if","in","into","is","it","its","itself","just","know","let","like","make","me",
   "might","more","most","my","myself","no","nor","not","now","of","off","on","once","only",
   "or","other","our","ours","ourselves","out","over","own","please","same","she","should",
   "so","some","such","than","that","the","their","theirs","them","themselves","then","there",
   "these","they","this","those","through","to","too","under","until","up","very","want",
   "was","we","were","what","when","where","which","while","who","whom","why","will","with",
   "would","you","your","yours","yourself","yourselves","also","one","two","three","use",
   "used","using","way","well","new","need","try","thing","things","really","much","many",
   "even","still","going","something","anything","help","thanks","thank","sure","yeah","yes",
   "okay","ok","right","good","great","think","work","working","time","first","last","look",
   "looking","give","take","come","see","say","said","tell","told","ask","asked","want",
   "wanted","actually","maybe","probably","basically","however","example","different","another"]

/-- The clusterer's `TOPIC_TEMPLATES` dictionary. -/
def TOPIC_TEMPLATES : List (String × String) :=
  [("python", "Your Python Projects"), ("javascript", "Your JavaScript Projects"),
   ("typescript", "Your TypeScript Projects"), ("react", "Your React Development"),
   ("java", "Your Java Projects"), ("rust", "Your Rust Projects"),
   ("golang", "Your Go Projects"), ("sql", "Your Database Work"),
   ("css", "Your Web Styling"), ("html", "Your Web Development"),
   ("api", "Your API Design"), ("docker", "Your DevOps Work"),
   ("aws", "Your Cloud Infrastructure"), ("recipe", "Your Cooking & Recipes"),
   ("cook", "Your Cooking & Recipes"), ("food", "Your Food & Cooking"),
   ("travel", "Your Travel Research"), ("trip", "Your Travel Plans"),
   ("health", "Your Health & Wellness"), ("fitness", "Your Fitness Journey"),
   ("writing", "Your Writing Projects"), ("email", "Your Email & Communication"),
   ("resume", "Your Career Development"), ("interview", "Your Career Preparation"),
   ("math", "Your Math & Calculations"), ("data", "Your Data Analysis"),
   ("design", "Your Design Work"), ("business", "Your Business Ideas"),
   ("marketing", "Your Marketing Strategy"), ("finance", "Your Financial Planning"),
   ("learning", "Your Learning & Education")]

/-- Association lookup in a string-keyed literal object. -/
def assocFind {α : Type} : List (String × α) → String → Option α
  | [], _ => none
  | (k', v) :: rest, k => if k' = k then some v else assocFind rest k

/-- Clusterer `SIMILARITY_THRESHOLD`. -/
def SIMILARITY_THRESHOLD : ℚ := 15 / 100

/-- Clusterer `MIN_CLUSTER_SIZE`. -/
def MIN_CLUSTER_SIZE : Nat := 2

/-- The maximal word-character runs of a character list, left to right (the
pieces of a JS split on `[\s\W]+`, which is exactly the non-word characters;
the empty boundary pieces JS can produce are dropped by the length filter
anyway). -/
def wordRuns : List Char → List Char → List String
  | [], cur => if cur = [] then [] else [cur.reverse.asString]
  | c :: rest, cur =>
    if wordChar c then wordRuns rest (c :: cur)
    else if cur = [] then wordRuns rest []
    else cur.reverse.asString :: wordRuns rest []

/-- Clusterer `tokenize`: lowercase, split on non-word runs, keep tokens of
length ≥ 3 outside the stopword set. -/
def tokenize (text : String) : List String :=
  (wordRuns (jsToLower text).toList []).filter
    (fun t => decide (3 ≤ t.length) && !decide (t ∈ STOPWORDS))

/-- JS `counts[t] = (counts[t] || 0) + w` on an insertion-ordered object. -/
def bumpCount : List (String × Nat) → String → Nat → List (String × Nat)
  | [], t, w => [(t, w)]
  | (t', c) :: rest, t, w =>
    if t' = t then (t', c + w) :: rest else (t', c) :: bumpCount rest t w

/-- Clusterer `extractKeywords`: title tokens weighted 3, tokens of the first
500 characters of each user message weighted 1; `Object.entries` order is
first-insertion order, which `bumpCount` preserves. -/
def extractKeywords (conv : Conversation) : List (String × Nat) :=
  let base := (tokenize conv.title).foldl (fun acc tok => bumpCount acc tok 3) []
  conv.messages.foldl
    (fun acc mg =>
      if mg.authorRole == "user" then
        (tokenize (((String.intercalate " " (mg.contentParts.map Fragment.text)).toList.take 500).asString)).foldl
          (fun a tok => bumpCount a tok 1) acc
      else acc)
    base

/-- Documents containing a term.  The source builds the `df` object
incrementally with a per-document `seen` set, which makes each document count
at most once per term; that is exactly this containment count. -/
def docFreq (convKeywords : List (List (String × Nat))) (term : String) : Nat :=
  convKeywords.countP (fun kws => kws.any (fun tc => tc.1 == term))

/-- Stable insertion into a list sorted weakly descending by `le`. -/
def insSorted {α : Type} (le : α → α → Bool) (x : α) : List α → List α
  | [] => [x]
  | y :: rest => if le x y then x :: y :: rest else y :: insSorted le x rest

/-- Stable sort (insertion sort): the unique stable order JS's
spec-mandated-stable `Array.prototype.sort` produces under a numeric
comparator. -/
def stableSort {α : Type} (le : α → α → Bool) : List α → List α
  | [] => []
  | x :: rest => insSorted le x (stableSort le rest)

/-- Per-conversation top-20 TF-IDF keyword sets (`Math.log` abstracted as
`logf`; `df[term] || 1` guards an absent entry). -/
def topKeywordsOf (logf : ℚ → ℚ) (docCount : Nat)
    (convKeywords : List (List (String × Nat))) : List (List String) :=
  convKeywords.map fun keywords =>
    let scored := keywords.map fun tc =>
      let d := docFreq convKeywords tc.1
      (tc.1, (tc.2 : ℚ) * logf ((docCount : ℚ) / ((if d = 0 then 1 else d : Nat) : ℚ)))
    dedupFirst (((stableSort (fun a b => decide (b.2 ≤ a.2)) scored).take 20).map Prod.fst)

/-- Clusterer `jaccardSimilarity` over keyword sets (as deduplicated lists). -/
def jaccardSimilarity (a b : List String) : ℚ :=
  let intersection := (a.filter (fun x => decide (x ∈ b))).length
  let union := a.length + b.length - intersection
  if union = 0 then 0 else (intersection : ℚ) / (union : ℚ)

/-- Clusterer `maxPairwiseSimilarity`. -/
def maxPairwiseSimilarity (indicesA indicesB : List Nat)
    (topKeywords : List (List String)) : ℚ :=
  indicesA.foldl
    (fun maxSim i =>
      indicesB.foldl
        (fun ms j =>
          let sim := jaccardSimilarity (topKeywords.getD i []) (topKeywords.getD j [])
          if ms < sim then sim else ms)
        maxSim)
    0

/-- The index pairs `(i, j)`, `i < j < n`, in the visit order of the JS
double loop. -/
def pairIdxs (n : Nat) : List (Nat × Nat) :=
  ((List.range n).map
    (fun i => ((List.range n).filter (fun j => decide (i < j))).map (fun j => (i, j)))).flatten

/-- The best-pair search of one `agglomerativeCluster` round (`bestSim`
starts at 0 and only strictly greater similarities are taken, so `none`
corresponds to `bestI === -1`). -/
def bestPair (clusters : List (List Nat)) (tk : List (List String)) :
    ℚ × Option (Nat × Nat) :=
  (pairIdxs clusters.length).foldl
    (fun acc ij =>
      let sim := maxPairwiseSimilarity (clusters.getD ij.1 []) (clusters.getD ij.2 []) tk
      if acc.1 < sim then (sim, some ij) else acc)
    (0, none)

/-- `clusters[bestI].indices.push(...clusters[bestJ].indices)` followed by
`clusters.splice(bestJ, 1)` (the search guarantees `i < j < length`). -/
def mergeAt (clusters : List (List Nat)) (i j : Nat) : List (List Nat) :=
  (clusters.set i (clusters.getD i [] ++ clusters.getD j [])).eraseIdx j

/-- The merge loop of `agglomerativeCluster` (fueled form of the JS
`while (true)`; each round removes a cluster, so `n` rounds always suffice
and the fuel never runs out on the initial singleton configuration). -/
def aggLoop (tk : List (List String)) : Nat → List (List Nat) → List (List Nat)
  | 0, clusters => clusters
  | fuel + 1, clusters =>
    match bestPair clusters tk with
    | (_, none) => clusters
    | (bestSim, some ij) =>
      if bestSim < SIMILARITY_THRESHOLD then clusters
      else aggLoop tk fuel (mergeAt clusters ij.1 ij.2)

/-- The initial one-singleton-per-conversation cluster list. -/
def initClusters (n : Nat) : List (List Nat) := (List.range n).map fun i => [i]

/-- The cluster index lists after the merge loop stops. -/
def mergedOf (tk : List (List String)) (n : Nat) : List (List Nat) :=
  aggLoop tk n (initClusters n)

/-- Clusterer `agglomerativeCluster` (over indices; the JS takes the
conversation array but uses only its length here). -/
def agglomerativeCluster (n : Nat) (tk : List (List String)) : List (List Nat) :=
  let clusters := mergedOf tk n
  let realClusters := clusters.filter fun c => decide (MIN_CLUSTER_SIZE ≤ c.length)
  let singles := clusters.filter fun c => decide (c.length < MIN_CLUSTER_SIZE)
  if singles.length ≠ 0 then realClusters ++ [singles.flatten] else realClusters

/-- Clusterer `getClusterKeywords`: aggregate membership counts over the
cluster's keyword sets, stably sorted descending. -/
def getClusterKeywords (indices : List Nat) (tk : List (List String)) : List String :=
  let counts := indices.foldl
    (fun acc i => (tk.getD i []).foldl (fun a term => bumpCount a term 1) acc) []
  (stableSort (fun a b => decide (b.2 ≤ a.2)) counts).map Prod.fst

/-- JS `word.charAt(0).toUpperCase() + word.slice(1)`. -/
def capitalizeFirst (w : String) : String :=
  match w.toList with
  | [] => ""
  | c :: rest => (c.toUpper :: rest).asString

/-- Clusterer `generateLabel`: first keyword hitting a topic template wins,
else `Topic: <Capitalized first keyword>`, else `General`. -/
def generateLabel (keywords : List String) : String :=
  match keywords.find? (fun k => (assocFind TOPIC_TEMPLATES k).isSome) with
  | some k => (assocFind TOPIC_TEMPLATES k).getD ""
  | none =>
    match keywords with
    | [] => "General"
    | w :: _ => "Topic: " ++ capitalizeFirst w

/-- A labeled output cluster. -/
structure Cluster where
  label : String
  conversations : List Conversation
  keywords : List String
deriving Repr, DecidableEq

/-- Placeholder for the (never taken) out-of-range JS index `undefined`;
every cluster index is in range by construction. -/
def emptyConv : Conversation := ⟨"", "", none, none, [], []⟩

/-- The per-conversation top keyword sets the clusterer computes for a
conversation list. -/
def topKeywordsFull (logf : ℚ → ℚ) (conversations : List Conversation) :
    List (List String) :=
  topKeywordsOf logf conversations.length (conversations.map extractKeywords)

/-- The labeling step applied to each final index cluster. -/
def labelCluster (conversations : List Conversation) (tk : List (List String))
    (c : List Nat) : Cluster :=
  let keywords := getClusterKeywords c tk
  ⟨generateLabel keywords, c.map (fun i => conversations.getD i emptyConv),
   keywords.take 10⟩

/-- Clusterer `clusterConversations`. -/
def clusterConversations (logf : ℚ → ℚ) (conversations : List Conversation) :
    List Cluster :=
  if conversations.length < 2 then [⟨"All Conversations", conversations, []⟩]
  else
    let tk := topKeywordsFull logf conversations
    (agglomerativeCluster conversations.length tk).map (labelCluster conversations tk)

/-! ## Claim C8 (corrected): parseTimestamp -/

/-- C8 counterexample: the claim says an input unparseable as a number yields
`null`, but `new Date(Number("abc") * 1000)` is an Invalid Date object, not
`null` (the `try`/`catch` never fires, since neither `Number` nor the `Date`
constructor throws). -/
theorem claim_c8_counterexample :
    parseTimestamp (JsTime.str "abc") = some JsDate.invalid ∧
    parseTimestamp (JsTime.str "abc") ≠ none := by
  constructor
  · rfl
  · intro h
    rw [show parseTimestamp (JsTime.str "abc") = some JsDate.invalid from rfl] at h
    exact Option.noConfusion h

/-- C8 amended: `parseTimestamp` maps a number `n` of epoch seconds to the
absolute timestamp `n * 1000` ms, returns `null` exactly when the input is
`null` or `undefined`, and on any other non-numeric input returns an Invalid
Date value rather than `null`; it never throws (it is total, and its only
conditional is the `== null` test). -/
theorem claim_c8 (t : JsTime) :
    (∀ n, t = JsTime.num n → parseTimestamp t = some (JsDate.epochMs (n * 1000))) ∧
    (parseTimestamp t = none ↔ (t = JsTime.null ∨ t = JsTime.undef)) := by
  refine ⟨fun n ht => by subst ht; rfl, ?_, ?_⟩
  · intro h
    cases t with
    | null => exact Or.inl rfl
    | undef => exact Or.inr rfl
    | num n =>
      rw [show parseTimestamp (JsTime.num n) = some (JsDate.epochMs (n * 1000)) from rfl] at h
      exact Option.noConfusion h
    | str s =>
      have he : parseTimestamp (JsTime.str s) =
          (match jsToNumber (JsTime.str s) with
           | none => some JsDate.invalid
           | some n => some (JsDate.epochMs (n * 1000))) := rfl
      rw [he] at h
      cases hj : jsToNumber (JsTime.str s) <;> rw [hj] at h <;> exact Option.noConfusion h
  · rintro (rfl | rfl) <;> rfl

/-- C8 witness: a concrete numeric input. -/
theorem claim_c8_witness :
    parseTimestamp (JsTime.num 5) = some (JsDate.epochMs (5 * 1000)) ∧
    (parseTimestamp (JsTime.num 5) = none ↔
      (JsTime.num 5 = JsTime.null ∨ JsTime.num 5 = JsTime.undef)) :=
  ⟨(claim_c8 (JsTime.num 5)).1 5 rfl, (claim_c8 (JsTime.num 5)).2⟩

/-! ## Claim C3 (corrected): content rendering -/

/-- C3 counterexample: the claim says any payload with `text: "hello"` yields
a fragment containing "hello" for every declared content-type tag, but the
`text` handler reads only `parts`; a `text`-typed payload with `text: "hello"`
and no parts renders to zero fragments. -/
theorem claim_c3_counterexample :
    ({ emptyContent with content_type := some "text", text := some "hello" } :
        RawContent).text = some "hello" ∧
    renderContent { emptyContent with content_type := some "text", text := some "hello" } = [] :=
  ⟨rfl, rfl⟩

/-- C3 amended: (a) a payload of type "unknown_format" with neither `text`
nor `parts` renders to exactly one fragment naming the unsupported type;
(b) a payload whose `text` is "hello" renders to at least one fragment whose
text is "hello" for every declared content-type tag except `text`,
`multimodal_text` and `tether_browsing_display`, whose handlers read only the
`parts`/`result` fields and can yield zero fragments. -/
theorem claim_c3 :
    (∀ c : RawContent, c.content_type = some "unknown_format" → c.text = none →
      c.parts = none →
      renderContent c = [mkFrag "unknown" "[Unsupported content type: unknown_format]"]) ∧
    (∀ c : RawContent, c.text = some "hello" →
      jsOrStr c.content_type "text" ∉ ["text", "multimodal_text", "tether_browsing_display"] →
      ∃ f ∈ renderContent c, f.text = "hello") := by
  constructor
  · intro c h1 h2 h3
    obtain ⟨ct0, p0, t0, l0, r0, ti0, u0⟩ := c
    simp only at h1 h2 h3
    subst h1; subst h2; subst h3
    rfl
  · intro c htext hnot
    obtain ⟨ct0, p0, t0, l0, r0, ti0, u0⟩ := c
    simp only at htext
    subst htext
    simp only [List.mem_cons, List.not_mem_nil, not_or, or_false] at hnot
    obtain ⟨hn1, hn2, hn3⟩ := hnot
    have hcode : ∀ cc : RawContent, cc.text = some "hello" →
        ∃ f ∈ handleCode cc, f.text = "hello" := by
      intro cc hcc
      exact ⟨⟨"code", jsOrStr cc.text "", some (jsOrStr cc.language "python"),
        none, none, none⟩, List.mem_singleton.mpr rfl, by rw [hcc]; rfl⟩
    have hexec : ∀ cc : RawContent, cc.text = some "hello" →
        ∃ f ∈ handleExecutionOutput cc, f.text = "hello" := by
      intro cc hcc
      refine ⟨mkFrag "execution_output" "hello", ?_, rfl⟩
      rw [handleExecutionOutput, hcc]
      exact List.mem_singleton.mpr rfl
    have hquote : ∀ cc : RawContent, cc.text = some "hello" →
        ∃ f ∈ handleBrowsingQuote cc, f.text = "hello" := by
      intro cc hcc
      refine ⟨⟨"tether_quote", "hello", none, none,
        some (jsOrStr cc.title ""), some (jsOrStr cc.url "")⟩, ?_, rfl⟩
      rw [handleBrowsingQuote, hcc]
      exact List.mem_singleton.mpr rfl
    have hunk : ∀ cc : RawContent, cc.text = some "hello" →
        ∃ f ∈ handleUnknown cc, f.text = "hello" := by
      intro cc hcc
      refine ⟨mkFrag "unknown" "hello", ?_, rfl⟩
      rw [handleUnknown, hcc]
      exact List.mem_singleton.mpr rfl
    show ∃ f ∈ renderContent ⟨ct0, p0, some "hello", l0, r0, ti0, u0⟩, f.text = "hello"
    rw [renderContent]
    simp only
    rw [show (jsOrStr ct0 "text" == "text") = false from beq_eq_false_iff_ne.mpr hn1]
    simp only [Bool.false_eq_true, if_false]
    by_cases h2 : jsOrStr ct0 "text" = "code"
    · rw [h2]; exact hcode ⟨ct0, p0, some "hello", l0, r0, ti0, u0⟩ rfl
    · rw [show (jsOrStr ct0 "text" == "code") = false from beq_eq_false_iff_ne.mpr h2]
      simp only [Bool.false_eq_true, if_false]
      by_cases h3 : jsOrStr ct0 "text" = "execution_output"
      · rw [h3]; exact hexec ⟨ct0, p0, some "hello", l0, r0, ti0, u0⟩ rfl
      · rw [show (jsOrStr ct0 "text" == "execution_output") = false from
          beq_eq_false_iff_ne.mpr h3]
        simp only [Bool.false_eq_true, if_false]
        rw [show (jsOrStr ct0 "text" == "tether_browsing_display") = false from
          beq_eq_false_iff_ne.mpr hn3]
        simp only [Bool.false_eq_true, if_false]
        by_cases h5 : jsOrStr ct0 "text" = "tether_quote"
        · rw [h5]; exact hquote ⟨ct0, p0, some "hello", l0, r0, ti0, u0⟩ rfl
        · rw [show (jsOrStr ct0 "text" == "tether_quote") = false from
            beq_eq_false_iff_ne.mpr h5]
          simp only [Bool.false_eq_true, if_false]
          rw [show (jsOrStr ct0 "text" == "multimodal_text") = false from
            beq_eq_false_iff_ne.mpr hn2]
          simp only [Bool.false_eq_true, if_false]
          exact hunk ⟨ct0, p0, some "hello", l0, r0, ti0, u0⟩ rfl

/-- C3 witness: the unknown-type placeholder and a code payload carrying
"hello". -/
theorem claim_c3_witness :
    renderContent { emptyContent with content_type := some "unknown_format" } =
      [mkFrag "unknown" "[Unsupported content type: unknown_format]"] ∧
    ∃ f ∈ renderContent { emptyContent with content_type := some "code", text := some "hello" },
      f.text = "hello" :=
  ⟨claim_c3.1 { emptyContent with content_type := some "unknown_format" } rfl rfl rfl,
   claim_c3.2 { emptyContent with content_type := some "code", text := some "hello" } rfl
     (by decide)⟩

/-! ## Splitter lemmas (claims C2, C10) -/

/-- The parts a run of `splitLoop` produces, described by the message blocks
it cut: one `makePart` per block, with consecutive part numbers. -/
def partsFrom (conv : Conversation) (pn : Nat) : List (List Message) → List Conversation
  | [] => []
  | c :: cs => makePart conv c pn :: partsFrom conv (pn + 1) cs

theorem partsFrom_length (conv : Conversation) :
    ∀ (css : List (List Message)) (pn : Nat), (partsFrom conv pn css).length = css.length := by
  intro css
  induction css with
  | nil => intro pn; rfl
  | cons c cs ih => intro pn; simp [partsFrom, ih]

theorem partsFrom_map_messages (conv : Conversation) :
    ∀ (css : List (List Message)) (pn : Nat),
      ((partsFrom conv pn css).map Conversation.messages).flatten = css.flatten := by
  intro css
  induction css with
  | nil => intro pn; rfl
  | cons c cs ih => intro pn; simp [partsFrom, ih, makePart]

theorem partsFrom_mem (conv : Conversation) :
    ∀ (css : List (List Message)) (pn : Nat) (p : Conversation),
      p ∈ partsFrom conv pn css → ∃ c ∈ css, ∃ j, p = makePart conv c j := by
  intro css
  induction css with
  | nil => intro pn p hp; exact absurd hp (List.not_mem_nil p)
  | cons c cs ih =>
    intro pn p hp
    rcases List.mem_cons.mp hp with rfl | hp
    · exact ⟨c, List.mem_cons_self c cs, pn, rfl⟩
    · obtain ⟨c', hc', j, hj⟩ := ih (pn + 1) p hp
      exact ⟨c', List.mem_cons_of_mem c hc', j, hj⟩

theorem partsFrom_get (conv : Conversation) :
    ∀ (css : List (List Message)) (pn k : Nat) (hk : k < (partsFrom conv pn css).length)
      (hk' : k < css.length),
      (partsFrom conv pn css).get ⟨k, hk⟩ = makePart conv (css.get ⟨k, hk'⟩) (pn + k) := by
  intro css
  induction css with
  | nil => intro pn k hk hk'; exact absurd hk' (by simp)
  | cons c cs ih =>
    intro pn k hk hk'
    cases k with
    | zero => simp [partsFrom]
    | succ k =>
      have h1 : k < (partsFrom conv (pn + 1) cs).length := by
        have := hk; simp [partsFrom] at this; omega
      have h2 : k < cs.length := by simp at hk'; omega
      show (partsFrom conv (pn + 1) cs).get ⟨k, h1⟩ = _
      rw [ih (pn + 1) k h1 h2]
      congr 1
      omega

/-- The message loop cuts the input into non-empty consecutive blocks. -/
theorem splitLoop_spec (conv : Conversation) (maxSize : Nat) :
    ∀ (msgs cur : List Message) (curSize pn : Nat), cur ≠ [] ∨ msgs ≠ [] →
      ∃ css : List (List Message),
        splitLoop conv maxSize msgs cur curSize pn = partsFrom conv pn css ∧
        css.flatten = cur ++ msgs ∧ ∀ c ∈ css, c ≠ [] := by
  intro msgs
  induction msgs with
  | nil =>
    intro cur curSize pn h
    rcases h with h | h
    · refine ⟨[cur], ?_, by simp, ?_⟩
      · simp only [splitLoop, if_neg h]
        rfl
      · intro c hc
        rcases List.mem_cons.mp hc with rfl | hc
        · exact h
        · exact absurd hc (List.not_mem_nil c)
    · exact absurd rfl h
  | cons msg rest ih =>
    intro cur curSize pn _
    rw [splitLoop]
    by_cases hb : maxSize < curSize + msgSize msg ∧ cur ≠ []
    · rw [if_pos hb]
      obtain ⟨css, heq, hfl, hne⟩ := ih [msg] (msgSize msg) (pn + 1) (Or.inl (by simp))
      refine ⟨cur :: css, ?_, ?_, ?_⟩
      · rw [heq]; rfl
      · simp [hfl]
      · intro c hc
        rcases List.mem_cons.mp hc with rfl | hc
        · exact hb.2
        · exact hne c hc
    · rw [if_neg hb]
      obtain ⟨css, heq, hfl, hne⟩ := ih (cur ++ [msg]) (curSize + msgSize msg) pn
        (Or.inl (by simp))
      exact ⟨css, heq, by simp [hfl], hne⟩

/-- C2: splitting preserves the message sequence.  Every part of
`splitAtMessages` is non-empty; the concatenation of the parts' message lists
in order is exactly the original message list; a one-part split returns the
original conversation object; and in a genuine (multi-part) split the k-th
part carries id `<id>_part<k+1>` and title `<title> (Part <k+1>)`. -/
theorem claim_c2 (conv : Conversation) (maxSize : Nat) (hne : conv.messages ≠ [])
    (hpos : 0 < maxSize) :
    (∀ p ∈ splitAtMessages conv maxSize, p.messages ≠ []) ∧
    ((splitAtMessages conv maxSize).map Conversation.messages).flatten = conv.messages ∧
    ((splitAtMessages conv maxSize).length = 1 → splitAtMessages conv maxSize = [conv]) ∧
    (2 ≤ (splitAtMessages conv maxSize).length →
      ∀ k (hk : k < (splitAtMessages conv maxSize).length),
        ((splitAtMessages conv maxSize).get ⟨k, hk⟩).id =
          conv.id ++ "_part" ++ toString (k + 1) ∧
        ((splitAtMessages conv maxSize).get ⟨k, hk⟩).title =
          conv.title ++ " (Part " ++ toString (k + 1) ++ ")") := by
  obtain ⟨css, heq, hfl, hcne⟩ := splitLoop_spec conv maxSize conv.messages [] 0 1 (Or.inr hne)
  have hsplit : splitAtMessages conv maxSize =
      if (partsFrom conv 1 css).length = 1 then [conv] else partsFrom conv 1 css := by
    rw [splitAtMessages, if_neg hne, heq]
  by_cases hl : (partsFrom conv 1 css).length = 1
  · rw [hsplit, if_pos hl]
    refine ⟨?_, by simp, fun _ => rfl, ?_⟩
    · intro p hp
      rcases List.mem_cons.mp hp with rfl | hp
      · exact hne
      · exact absurd hp (List.not_mem_nil p)
    · intro habs
      simp at habs
  · rw [hsplit, if_neg hl]
    refine ⟨?_, ?_, fun h => absurd h hl, ?_⟩
    · intro p hp
      obtain ⟨c, hc, j, rfl⟩ := partsFrom_mem conv css 1 p hp
      exact hcne c hc
    · rw [partsFrom_map_messages, hfl]
      rfl
    · intro _ k hk
      have hk' : k < css.length := by rw [partsFrom_length] at hk; exact hk
      rw [partsFrom_get conv css 1 k hk hk']
      constructor
      · show conv.id ++ "_part" ++ toString (1 + k) = _
        rw [Nat.add_comm 1 k]
      · show conv.title ++ " (Part " ++ toString (1 + k) ++ ")" = _
        rw [Nat.add_comm 1 k]

/-- C2 witness input: a two-message conversation whose parts fit 100
characters each. -/
def c2conv : Conversation :=
  ⟨"id", "T", none, none,
   [⟨"m1", "user", [mkFrag "text" (String.mk (List.replicate 60 'x'))], none, some "gpt-4"⟩,
    ⟨"m2", "assistant", [mkFrag "text" "yo"], none, none⟩], ["gpt-4"]⟩

/-- C2 witness: the theorem applied to `c2conv` with threshold 100. -/
theorem claim_c2_witness :
    (∀ p ∈ splitAtMessages c2conv 100, p.messages ≠ []) ∧
    ((splitAtMessages c2conv 100).map Conversation.messages).flatten = c2conv.messages ∧
    ((splitAtMessages c2conv 100).length = 1 → splitAtMessages c2conv 100 = [c2conv]) ∧
    (2 ≤ (splitAtMessages c2conv 100).length →
      ∀ k (hk : k < (splitAtMessages c2conv 100).length),
        ((splitAtMessages c2conv 100).get ⟨k, hk⟩).id =
          c2conv.id ++ "_part" ++ toString (k + 1) ∧
        ((splitAtMessages c2conv 100).get ⟨k, hk⟩).title =
          c2conv.title ++ " (Part " ++ toString (k + 1) ++ ")") :=
  claim_c2 c2conv 100 (by decide) (by decide)

theorem mem_dedupFirst_aux :
    ∀ (l acc : List String) (x : String),
      x ∈ l.foldl (fun acc y => if y ∈ acc then acc else acc ++ [y]) acc ↔
        x ∈ acc ∨ x ∈ l := by
  intro l
  induction l with
  | nil => intro acc x; simp
  | cons y ys ih =>
    intro acc x
    simp only [List.foldl_cons]
    rw [ih]
    by_cases hy : y ∈ acc
    · rw [if_pos hy]
      constructor
      · rintro (h | h)
        · exact Or.inl h
        · exact Or.inr (List.mem_cons_of_mem y h)
      · rintro (h | h)
        · exact Or.inl h
        · rcases List.mem_cons.mp h with rfl | h
          · exact Or.inl hy
          · exact Or.inr h
    · rw [if_neg hy]
      constructor
      · rintro (h | h)
        · rcases List.mem_append.mp h with h | h
          · exact Or.inl h
          · exact Or.inr (List.mem_cons.mpr (Or.inl (List.mem_singleton.mp h)))
        · exact Or.inr (List.mem_cons_of_mem y h)
      · rintro (h | h)
        · exact Or.inl (List.mem_append.mpr (Or.inl h))
        · rcases List.mem_cons.mp h with rfl | h
          · exact Or.inl (List.mem_append.mpr (Or.inr (List.mem_singleton.mpr rfl)))
          · exact Or.inr h

theorem mem_dedupFirst (l : List String) (x : String) : x ∈ dedupFirst l ↔ x ∈ l := by
  rw [dedupFirst, mem_dedupFirst_aux]
  simp

/-- The truthiness map inside `slugsOf`. -/
def slugTruthy (mg : Message) : Option String :=
  match mg.modelSlug with
  | some s => if s = "" then none else some s
  | none => none

theorem slugsOf_eq_dedup (ms : List Message) :
    slugsOf ms = dedupFirst (ms.filterMap slugTruthy) := rfl

theorem slugTruthy_eq_modelSlug (mg : Message) (h : mg.modelSlug ≠ some "") :
    slugTruthy mg = mg.modelSlug := by
  cases hs : mg.modelSlug with
  | none => simp [slugTruthy, hs]
  | some s =>
    have hne : s ≠ "" := fun hrfl => h (by rw [hs, hrfl])
    simp [slugTruthy, hs, hne]

theorem slugsOf_eq_claim (ms : List Message) (h : ∀ mg ∈ ms, mg.modelSlug ≠ some "") :
    slugsOf ms = dedupFirst (ms.filterMap Message.modelSlug) := by
  rw [slugsOf_eq_dedup]
  congr 1
  induction ms with
  | nil => rfl
  | cons mg ms ih =>
    rw [List.filterMap_cons, List.filterMap_cons,
      slugTruthy_eq_modelSlug mg (h mg (List.mem_cons_self mg ms)),
      ih (fun x hx => h x (List.mem_cons_of_mem mg hx))]

theorem slugsOf_subset (sub whole : List Message) (hsub : ∀ mg ∈ sub, mg ∈ whole) :
    ∀ s ∈ slugsOf sub, s ∈ slugsOf whole := by
  intro s hs
  rw [slugsOf_eq_dedup, mem_dedupFirst] at hs
  obtain ⟨mg, hmg, hval⟩ := List.mem_filterMap.mp hs
  rw [slugsOf_eq_dedup, mem_dedupFirst]
  exact List.mem_filterMap.mpr ⟨mg, hsub mg hmg, hval⟩

/-- C10: every part produced by splitting carries the original createdAt and
updatedAt unchanged, and its modelSlugs set is exactly the set of distinct
non-null modelSlug values of the part's messages, hence a subset of the
original conversation's modelSlugs.  The hypotheses say the input
conversation is pipeline-shaped: its own modelSlugs field was computed from
its messages (as `parseConversations` computes it), and no message carries
the degenerate slug `""` (as `parseMessage` guarantees, `"" ` being falsy in
the JS truthiness filters). -/
theorem claim_c10 (conv : Conversation) (maxSize : Nat)
    (h1 : conv.modelSlugs = slugsOf conv.messages)
    (h2 : ∀ mg ∈ conv.messages, mg.modelSlug ≠ some "") :
    ∀ p ∈ splitAtMessages conv maxSize,
      p.createdAt = conv.createdAt ∧ p.updatedAt = conv.updatedAt ∧
      p.modelSlugs = dedupFirst (p.messages.filterMap Message.modelSlug) ∧
      ∀ s ∈ p.modelSlugs, s ∈ conv.modelSlugs := by
  intro p hp
  by_cases hne : conv.messages = []
  · rw [splitAtMessages, if_pos hne] at hp
    rcases List.mem_cons.mp hp with hpc | hp
    · subst hpc
      exact ⟨rfl, rfl, by rw [h1, slugsOf_eq_claim _ h2], fun s hs => hs⟩
    · exact absurd hp (List.not_mem_nil p)
  · obtain ⟨css, heq, hfl, _⟩ := splitLoop_spec conv maxSize conv.messages [] 0 1 (Or.inr hne)
    rw [splitAtMessages, if_neg hne, heq] at hp
    by_cases hl : (partsFrom conv 1 css).length = 1
    · rw [if_pos hl] at hp
      rcases List.mem_cons.mp hp with hpc | hp
      · subst hpc
        exact ⟨rfl, rfl, by rw [h1, slugsOf_eq_claim _ h2], fun s hs => hs⟩
      · exact absurd hp (List.not_mem_nil p)
    · rw [if_neg hl] at hp
      obtain ⟨c, hc, j, rfl⟩ := partsFrom_mem conv css 1 p hp
      have hcsub : ∀ mg ∈ c, mg ∈ conv.messages := by
        intro mg hmg
        have : mg ∈ css.flatten := List.mem_flatten.mpr ⟨c, hc, hmg⟩
        rw [hfl] at this
        simpa using this
      refine ⟨rfl, rfl, ?_, ?_⟩
      · show slugsOf c = dedupFirst (c.filterMap Message.modelSlug)
        exact slugsOf_eq_claim c (fun mg hmg => h2 mg (hcsub mg hmg))
      · show ∀ s ∈ slugsOf c, s ∈ conv.modelSlugs
        rw [h1]
        exact slugsOf_subset c conv.messages hcsub

/-- C10 witness input: a parsed-shaped conversation with one slugged
message. -/
def c10conv : Conversation :=
  ⟨"i", "t", none, none,
   [⟨"m1", "user", [mkFrag "text" "q"], none, none⟩,
    ⟨"m2", "assistant", [mkFrag "text" "a"], none, some "gpt-4"⟩], ["gpt-4"]⟩

/-- The second part of splitting `c10conv` at threshold 60 (the part that
carries the slugged assistant message). -/
def c10part : Conversation :=
  makePart c10conv [⟨"m2", "assistant", [mkFrag "text" "a"], none, some "gpt-4"⟩] 2

/-- C10 witness: the theorem applied to `c10conv` with threshold 60, at its
second part. -/
theorem claim_c10_witness :
    c10part.createdAt = c10conv.createdAt ∧ c10part.updatedAt = c10conv.updatedAt ∧
    c10part.modelSlugs = dedupFirst (c10part.messages.filterMap Message.modelSlug) ∧
    "gpt-4" ∈ c10conv.modelSlugs := by
  have h := claim_c10 c10conv 60 (by decide) (by decide) c10part (by decide)
  exact ⟨h.1, h.2.1, h.2.2.1, h.2.2.2 "gpt-4" (by decide)⟩

/-! ## Claim C6: per-record degradation -/

/-- A record whose mapping is missing, empty, or rootless (every node has a
parent). -/
def degenerateMapping (rc : RawConv) : Bool :=
  match rc.mapping with
  | none => true
  | some mp => decide (mp.length = 0) || mp.all (fun e => e.2.parent.isSome)

theorem findRoot_none_of_all_parents :
    ∀ mp : Mapping, mp.all (fun e => e.2.parent.isSome) = true → findRoot mp = none := by
  intro mp
  induction mp with
  | nil => intro _; rfl
  | cons e rest ih =>
    intro h
    rw [List.all_cons, Bool.and_eq_true] at h
    obtain ⟨k, n⟩ := e
    rw [findRoot, if_neg]
    · exact ih h.2
    · intro hp
      rw [hp] at h
      exact Bool.noConfusion h.1

theorem traverseAndParse_degenerate (om : Option Mapping)
    (h : om = none ∨ ∃ mp, om = some mp ∧
      (mp.length = 0 ∨ mp.all (fun e => e.2.parent.isSome) = true)) :
    traverseAndParse (om.getD []) = [] := by
  rcases h with rfl | ⟨mp, rfl, h⟩
  · rfl
  · show traverseAndParse mp = []
    rcases h with h | h
    · rw [traverseAndParse, if_pos h]
    · by_cases hz : mp.length = 0
      · rw [traverseAndParse, if_pos hz]
      · rw [traverseAndParse, if_neg hz, traverseTree, if_neg hz,
          findRoot_none_of_all_parents mp h]
        rfl

/-- C6: parsing returns exactly one conversation per input record, and a
record whose mapping is missing, empty, or has no root node (every node has
a parent) yields a conversation with an empty message list; the whole
function is total, so no record is ever fatal. -/
theorem claim_c6 (rawData : List RawConv) :
    (parseConversations rawData).length = rawData.length ∧
    ∀ i (h : i < rawData.length) (h2 : i < (parseConversations rawData).length),
      degenerateMapping (rawData.get ⟨i, h⟩) = true →
      ((parseConversations rawData).get ⟨i, h2⟩).messages = [] := by
  constructor
  · simp [parseConversations]
  · intro i h h2 hdeg
    have hg : (parseConversations rawData).get ⟨i, h2⟩ =
        parseOneConv (rawData.get ⟨i, h⟩) := by
      simp [parseConversations]
    rw [hg]
    show traverseAndParse ((rawData.get ⟨i, h⟩).mapping.getD []) = []
    apply traverseAndParse_degenerate
    rw [degenerateMapping] at hdeg
    cases hm : (rawData.get ⟨i, h⟩).mapping with
    | none => exact Or.inl rfl
    | some mp =>
      rw [hm] at hdeg
      simp only [Bool.or_eq_true, decide_eq_true_eq] at hdeg
      exact Or.inr ⟨mp, rfl, hdeg⟩

/-- C6 witness input: one record with no mapping, one with an empty mapping,
one rootless. -/
def c6data : List RawConv :=
  [⟨some "a", some "A", .null, .null, none⟩,
   ⟨some "b", some "B", .null, .null, some []⟩,
   ⟨some "c", some "C", .null, .null,
    some [("x", ⟨some "y", some [], none⟩), ("y", ⟨some "x", some [], none⟩)]⟩]

/-- C6 witness: the theorem applied to `c6data` at index 2 (the rootless
record). -/
theorem claim_c6_witness :
    (parseConversations c6data).length = c6data.length ∧
    ((parseConversations c6data).get ⟨2, by decide⟩).messages = [] :=
  ⟨(claim_c6 c6data).1, (claim_c6 c6data).2 2 (by decide) (by decide) (by decide)⟩

/-! ## Claim C9: filename sanitization and collision resolution -/

theorem mem_of_mem_dropWhile {α : Type} (p : α → Bool) :
    ∀ (l : List α) (x : α), x ∈ l.dropWhile p → x ∈ l := by
  intro l
  induction l with
  | nil => intro x h; simpa using h
  | cons a t ih =>
    intro x h
    rw [List.dropWhile_cons] at h
    by_cases hp : p a = true
    · rw [if_pos hp] at h
      exact List.mem_cons_of_mem a (ih x h)
    · rw [if_neg hp] at h
      exact h

theorem mem_of_mem_take {α : Type} :
    ∀ (l : List α) (n : Nat) (x : α), x ∈ l.take n → x ∈ l := by
  intro l
  induction l with
  | nil => intro n x h; simpa using h
  | cons a t ih =>
    intro n x h
    cases n with
    | zero => simp at h
    | succ n =>
      rw [List.take_succ_cons] at h
      rcases List.mem_cons.mp h with rfl | h
      · exact List.mem_cons_self x t
      · exact List.mem_cons_of_mem a (ih n x h)

/-- The final fallback/truncation step of `sanitizeFilename`, for a character
list that already contains only legal characters. -/
theorem sanitize_final (s4 : List Char)
    (hgood : ∀ c ∈ s4, (wordChar c || c == '-' || c == '.') = true)
    (maxLength : Nat) (hml : 1 ≤ maxLength) :
    ((if s4 = [] then "untitled".toList else s4).take maxLength).asString ≠ "" ∧
    (∀ c ∈ ((if s4 = [] then "untitled".toList else s4).take maxLength).asString.toList,
      (wordChar c || c == '-' || c == '.') = true) ∧
    ((if s4 = [] then "untitled".toList else s4).take maxLength).asString.length ≤ maxLength := by
  have h5ne : (if s4 = [] then "untitled".toList else s4) ≠ [] := by
    by_cases h : s4 = []
    · rw [if_pos h]; decide
    · rw [if_neg h]; exact h
  have h5good : ∀ c ∈ (if s4 = [] then "untitled".toList else s4),
      (wordChar c || c == '-' || c == '.') = true := by
    by_cases h : s4 = []
    · rw [if_pos h]; decide
    · rw [if_neg h]; exact hgood
  set s5 := if s4 = [] then "untitled".toList else s4
  refine ⟨?_, ?_, ?_⟩
  · intro hemp
    have hdata : s5.take maxLength = [] := congrArg String.data hemp
    have hlen := congrArg List.length hdata
    rw [List.length_take] at hlen
    simp only [List.length_nil] at hlen
    rcases Nat.min_eq_zero_iff.mp hlen with h | h
    · omega
    · exact h5ne (List.length_eq_zero.mp h)
  · intro c hc
    exact h5good c (mem_of_mem_take s5 maxLength c hc)
  · show (s5.take maxLength).length ≤ maxLength
    rw [List.length_take]
    exact Nat.min_le_left _ _

theorem revDotIdx_none : ∀ l : List Char, '.' ∉ l → revDotIdx l = none := by
  intro l
  induction l with
  | nil => intro _; rfl
  | cons c rest ih =>
    intro h
    rw [revDotIdx, if_neg, ih (fun hm => h (List.mem_cons_of_mem c hm))]
    · rfl
    · intro hb
      exact h (List.mem_cons.mpr (Or.inl (eq_of_beq hb).symm))

theorem revDotIdx_mark : ∀ (l1 l2 : List Char), '.' ∉ l1 →
    revDotIdx (l1 ++ '.' :: l2) = some l1.length := by
  intro l1
  induction l1 with
  | nil =>
    intro l2 _
    simp [revDotIdx]
  | cons c rest ih =>
    intro l2 h
    rw [List.cons_append, revDotIdx, if_neg, ih l2 (fun hm => h (List.mem_cons_of_mem c hm))]
    · rfl
    · intro hb
      exact h (List.mem_cons.mpr (Or.inl (eq_of_beq hb).symm))

/-- The suffix goes right before the extension for a `stem.ext`-shaped path
with a non-empty stem and a dot-free extension. -/
theorem insertSuffix_ext (stem ext : List Char) (n : Nat) (hstem : stem ≠ [])
    (hext : '.' ∉ ext) :
    insertSuffix (stem ++ '.' :: ext).asString n =
      (stem ++ ("_" ++ toString n).toList ++ '.' :: ext).asString := by
  have hrev : (stem ++ '.' :: ext).reverse = ext.reverse ++ '.' :: stem.reverse := by
    rw [List.reverse_append, List.reverse_cons, List.append_assoc]
    rfl
  have hdot : lastDotIdx (stem ++ '.' :: ext) = some stem.length := by
    rw [lastDotIdx, hrev, revDotIdx_mark _ _ (by simpa using hext)]
    simp only [List.length_reverse, List.length_append, List.length_cons]
    congr 1
    omega
  have hpos : 0 < stem.length := List.length_pos.mpr hstem
  rw [insertSuffix]
  show (match lastDotIdx (stem ++ '.' :: ext) with
        | some i => if 0 < i then
            (((stem ++ '.' :: ext).take i ++ ("_" ++ toString n).toList ++
              (stem ++ '.' :: ext).drop i).asString)
          else (stem ++ '.' :: ext).asString ++ "_" ++ toString n
        | none => (stem ++ '.' :: ext).asString ++ "_" ++ toString n) = _
  rw [hdot]
  simp only [if_pos hpos]
  rw [List.take_left, List.drop_left]

/-- The count of earlier same-key registrations. -/
def keyCount (qs : List String) (k : String) : Nat :=
  qs.countP (fun q => jsToLower q == k)

theorem assocGet_set_self : ∀ (used : List (String × Nat)) (k : String) (v : Nat),
    assocGet (assocSet used k v) k = some v := by
  intro used
  induction used with
  | nil => intro k v; simp [assocSet, assocGet]
  | cons e rest ih =>
    intro k v
    obtain ⟨k', v'⟩ := e
    rw [assocSet]
    by_cases h : k' = k
    · rw [if_pos h, assocGet, if_pos h]
    · rw [if_neg h, assocGet, if_neg h, ih]

theorem assocGet_set_ne : ∀ (used : List (String × Nat)) (k k' : String) (v : Nat),
    k' ≠ k → assocGet (assocSet used k v) k' = assocGet used k' := by
  intro used
  induction used with
  | nil =>
    intro k k' v h
    have h2 : k ≠ k' := fun hh => h hh.symm
    simp [assocSet, assocGet, h2]
  | cons e rest ih =>
    intro k k' v h
    obtain ⟨k0, v0⟩ := e
    rw [assocSet]
    by_cases h0 : k0 = k
    · subst h0
      rw [if_pos rfl, assocGet, assocGet, if_neg (fun hh => h hh.symm),
        if_neg (fun hh => h hh.symm)]
    · rw [if_neg h0, assocGet, assocGet]
      by_cases h1 : k0 = k'
      · rw [if_pos h1, if_pos h1]
      · rw [if_neg h1, if_neg h1, ih _ _ _ h]

theorem keyCount_append (a b : List String) (k : String) :
    keyCount (a ++ b) k = keyCount a k + keyCount b k := by
  rw [keyCount, keyCount, keyCount, List.countP_append]

theorem keyCount_one_self (p : String) : keyCount [p] (jsToLower p) = 1 := by
  simp [keyCount, List.countP_cons]

theorem keyCount_one_ne (p : String) (k : String) (h : jsToLower p ≠ k) :
    keyCount [p] k = 0 := by
  simp [keyCount, List.countP_cons, List.countP_nil, h]

/-- The map invariant: after registering `qs`, the map stores, per
(lower-cased) key, one less than the number of registrations of that key. -/
theorem dedup_step (p : String) (qs : List String) (used : List (String × Nat))
    (hinv : ∀ k, assocGet used k =
      if keyCount qs k = 0 then none else some (keyCount qs k - 1)) :
    (∀ k, assocGet (deduplicatePath p used).2 k =
      if keyCount (qs ++ [p]) k = 0 then none else some (keyCount (qs ++ [p]) k - 1)) ∧
    (deduplicatePath p used).1 =
      (if keyCount qs (jsToLower p) = 0 then p
       else insertSuffix p (keyCount qs (jsToLower p))) := by
  have hkey := hinv (jsToLower p)
  rw [deduplicatePath]
  by_cases hz : keyCount qs (jsToLower p) = 0
  · rw [if_pos hz] at hkey
    rw [hkey]
    simp only
    constructor
    · intro k
      by_cases hk : k = jsToLower p
      · subst hk
        rw [assocGet_set_self, keyCount_append, keyCount_one_self, hz]
        simp
      · rw [assocGet_set_ne _ _ _ _ hk, hinv k, keyCount_append,
          keyCount_one_ne p k (fun hh => hk hh.symm)]
        simp
    · rw [if_pos hz]
  · rw [if_neg hz] at hkey
    rw [hkey]
    simp only
    constructor
    · intro k
      by_cases hk : k = jsToLower p
      · subst hk
        rw [assocGet_set_self, keyCount_append, keyCount_one_self]
        rw [if_neg (by omega)]
        congr 1
        omega
      · rw [assocGet_set_ne _ _ _ _ hk, hinv k, keyCount_append,
          keyCount_one_ne p k (fun hh => hk hh.symm)]
        simp
    · rw [if_neg hz]
      congr 1
      omega

/-- Each output of a registration run: the key count over everything
registered before decides between the plain path and the suffixed one. -/
theorem registerGo_spec : ∀ (ps qs : List String) (used : List (String × Nat)),
    (∀ k, assocGet used k =
      if keyCount qs k = 0 then none else some (keyCount qs k - 1)) →
    ∀ i (h : i < ps.length) (h2 : i < (registerGo used ps).length),
      (registerGo used ps).get ⟨i, h2⟩ =
        (if keyCount (qs ++ ps.take i) (jsToLower (ps.get ⟨i, h⟩)) = 0
         then ps.get ⟨i, h⟩
         else insertSuffix (ps.get ⟨i, h⟩)
           (keyCount (qs ++ ps.take i) (jsToLower (ps.get ⟨i, h⟩)))) := by
  intro ps
  induction ps with
  | nil => intro qs used hinv i h; exact absurd h (Nat.not_lt_zero i)
  | cons p rest ih =>
    intro qs used hinv i h h2
    obtain ⟨hstep, hout⟩ := dedup_step p qs used hinv
    cases i with
    | zero =>
      show (deduplicatePath p used).1 = _
      rw [hout]
      simp
    | succ i =>
      have h' : i < rest.length := by simpa using h
      have h2' : i < (registerGo (deduplicatePath p used).2 rest).length := by
        rw [registerGo] at h2
        simpa using h2
      show (registerGo (deduplicatePath p used).2 rest).get ⟨i, h2'⟩ = _
      rw [ih (qs ++ [p]) (deduplicatePath p used).2 hstep i h' h2']
      have htake : (qs ++ [p]) ++ rest.take i = qs ++ (p :: rest).take (i + 1) := by
        rw [List.take_succ_cons, List.append_assoc]
        rfl
      rw [htake]
      rfl

/-- C9: `sanitizeFilename` always yields a non-empty name of word characters,
dashes and dots (falling back to "untitled"), capped at the length limit;
and registering paths against one map returns the first registration of a
(case-insensitively compared) path unchanged while each later registration of
the same path comes back with the incrementing count of its prior
registrations inserted as a `_N` suffix before the file extension. -/
theorem claim_c9 :
    (∀ (title : String) (maxLength : Nat), 1 ≤ maxLength →
      sanitizeFilename title maxLength ≠ "" ∧
      (∀ c ∈ (sanitizeFilename title maxLength).toList,
        (wordChar c || c == '-' || c == '.') = true) ∧
      (sanitizeFilename title maxLength).length ≤ maxLength) ∧
    (∀ (stem ext : List Char) (n : Nat), stem ≠ [] → '.' ∉ ext →
      insertSuffix (stem ++ '.' :: ext).asString n =
        (stem ++ ("_" ++ toString n).toList ++ '.' :: ext).asString) ∧
    (∀ (ps : List String) (i : Nat) (h : i < ps.length)
      (h2 : i < (registerAll ps).length),
      (registerAll ps).get ⟨i, h2⟩ =
        (if keyCount (ps.take i) (jsToLower (ps.get ⟨i, h⟩)) = 0
         then ps.get ⟨i, h⟩
         else insertSuffix (ps.get ⟨i, h⟩)
           (keyCount (ps.take i) (jsToLower (ps.get ⟨i, h⟩))))) := by
  refine ⟨?_, insertSuffix_ext, ?_⟩
  · intro title maxLength hml
    have hgood : ∀ c ∈ (collapseWsGo false
        (trimEnds (title.toList.filter (fun c => !forbiddenChar c)))).filter
          (fun c => wordChar c || c == '-' || c == '.'),
        (wordChar c || c == '-' || c == '.') = true :=
      fun c hc => (List.mem_filter.mp hc).2
    have hgood4 : ∀ c ∈ ((((collapseWsGo false
        (trimEnds (title.toList.filter (fun c => !forbiddenChar c)))).filter
          (fun c => wordChar c || c == '-' || c == '.')).dropWhile
            dotUnd).reverse.dropWhile dotUnd).reverse,
        (wordChar c || c == '-' || c == '.') = true := by
      intro c hc
      rw [List.mem_reverse] at hc
      have hc2 := mem_of_mem_dropWhile dotUnd _ c hc
      rw [List.mem_reverse] at hc2
      exact hgood c (mem_of_mem_dropWhile dotUnd _ c hc2)
    exact sanitize_final _ hgood4 maxLength hml
  · intro ps i h h2
    have hinv : ∀ k, assocGet ([] : List (String × Nat)) k =
        if keyCount [] k = 0 then none else some (keyCount [] k - 1) := by
      intro k
      simp [assocGet, keyCount]
    have := registerGo_spec ps [] [] hinv i h h2
    simpa using this

/-- C9 witness: a title with '/', ':' and an emoji, an extension-shaped
suffix check, and a second (case-insensitively colliding) registration. -/
theorem claim_c9_witness :
    (sanitizeFilename "Fix my /api route: 🚀" 100 ≠ "" ∧
      (∀ c ∈ (sanitizeFilename "Fix my /api route: 🚀" 100).toList,
        (wordChar c || c == '-' || c == '.') = true) ∧
      (sanitizeFilename "Fix my /api route: 🚀" 100).length ≤ 100) ∧
    insertSuffix (['a', 'b'] ++ '.' :: ['m', 'd']).asString 1 =
      (['a', 'b'] ++ ("_" ++ toString 1).toList ++ '.' :: ['m', 'd']).asString ∧
    (registerAll ["A.md", "a.md"]).get ⟨1, by decide⟩ =
      (if keyCount (["A.md", "a.md"].take 1)
          (jsToLower (["A.md", "a.md"].get ⟨1, by decide⟩)) = 0
       then ["A.md", "a.md"].get ⟨1, by decide⟩
       else insertSuffix (["A.md", "a.md"].get ⟨1, by decide⟩)
         (keyCount (["A.md", "a.md"].take 1)
           (jsToLower (["A.md", "a.md"].get ⟨1, by decide⟩)))) :=
  ⟨claim_c9.1 "Fix my /api route: 🚀" 100 (by decide),
   claim_c9.2.1 ['a', 'b'] ['m', 'd'] 1 (by decide) (by decide),
   claim_c9.2.2 ["A.md", "a.md"] 1 (by decide) (by decide)⟩

/-! ## Traversal path machinery (claims C1, C7) -/

/-- The forward last-child path: the node ids the leaf-finding loop of
`traverseTree` visits, root first. -/
def fwdPath (m : Mapping) : Nat → String → List String
  | 0, cur => [cur]
  | fuel + 1, cur =>
    match lookup m cur with
    | none => [cur]
    | some n =>
      match childrenOf n with
      | [] => [cur]
      | c :: cs => cur :: fwdPath m fuel ((c :: cs).getLast (by simp))

/-- The ids are linked bottom-up by parent pointers, ending at `prev`. -/
def parentLinked (m : Mapping) : Option String → List String → Prop
  | _, [] => True
  | prev, a :: rest =>
    (∃ n, lookup m a = some n ∧ n.parent = prev) ∧ parentLinked m (some a) rest

/-- The ids are linked top-down by last-child steps, the last one childless. -/
def childLinked (m : Mapping) : List String → Prop
  | [] => True
  | [a] => ∃ n, lookup m a = some n ∧ childrenOf n = []
  | a :: b :: rest =>
    (∃ n c cs, lookup m a = some n ∧ childrenOf n = c :: cs ∧
      (c :: cs).getLast (by simp) = b) ∧
    childLinked m (b :: rest)

/-- The message a node contributes to the backward walk. -/
def keptNode (n : RawNode) : List RawMessage :=
  match n.message with
  | none => []
  | some msg => if keepMessage msg then [msg] else []

/-- The kept messages of a list of node ids, in id order. -/
def keptOf (m : Mapping) (ids : List String) : List RawMessage :=
  ids.filterMap fun i => (lookup m i).bind fun n => n.message.bind fun msg =>
    if keepMessage msg then some msg else none

/-- Every listed child of every node exists and points back to its parent. -/
def WellFormed (m : Mapping) : Prop :=
  ∀ a n, lookup m a = some n → ∀ c ∈ childrenOf n,
    ∃ cn, lookup m c = some cn ∧ cn.parent = some a

/-- Decidable form of `WellFormed` over the entry list. -/
def wellFormedB (m : Mapping) : Bool :=
  m.all fun e => (childrenOf e.2).all fun c =>
    match lookup m c with
    | some cn => cn.parent == some e.1
    | none => false

theorem getLast_congr {α : Type} (l l' : List α) (h : l = l') (h1 : l ≠ []) (h2 : l' ≠ []) :
    l.getLast h1 = l'.getLast h2 := by subst h; rfl

theorem lookup_mem : ∀ (m : Mapping) (k : String) (n : RawNode),
    lookup m k = some n → (k, n) ∈ m := by
  intro m
  induction m with
  | nil => intro k n h; exact Option.noConfusion h
  | cons e rest ih =>
    intro k n h
    obtain ⟨k', n'⟩ := e
    rw [lookup] at h
    by_cases hk : k' = k
    · rw [if_pos hk] at h
      injection h with h
      subst hk; subst h
      exact List.mem_cons_self _ _
    · rw [if_neg hk] at h
      exact List.mem_cons_of_mem _ (ih k n h)

theorem wellFormed_of_B (m : Mapping) (h : wellFormedB m = true) : WellFormed m := by
  intro a n hl c hc
  have hmem := lookup_mem m a n hl
  rw [wellFormedB, List.all_eq_true] at h
  have h2 := h (a, n) hmem
  rw [List.all_eq_true] at h2
  have h3 := h2 c hc
  cases hlc : lookup m c with
  | none => rw [hlc] at h3; exact Bool.noConfusion h3
  | some cn =>
    rw [hlc] at h3
    simp only [beq_iff_eq] at h3
    exact ⟨cn, rfl, h3⟩

theorem findRoot_lookup : ∀ (m : Mapping) (r : String),
    (m.map Prod.fst).Nodup → findRoot m = some r →
    ∃ n, lookup m r = some n ∧ n.parent = none := by
  intro m
  induction m with
  | nil => intro r _ hr; exact Option.noConfusion hr
  | cons e rest ih =>
    intro r hnd hr
    obtain ⟨k, n⟩ := e
    rw [findRoot] at hr
    by_cases hp : n.parent = none
    · rw [if_pos hp] at hr
      injection hr with hr
      subst hr
      exact ⟨n, by rw [lookup, if_pos rfl], hp⟩
    · rw [if_neg hp] at hr
      have hnd' : (rest.map Prod.fst).Nodup := (List.nodup_cons.mp (by simpa using hnd)).2
      obtain ⟨n', hl', hp'⟩ := ih r hnd' hr
      have hkr : k ≠ r := by
        intro hkr
        subst hkr
        have : k ∈ rest.map Prod.fst :=
          List.mem_map.mpr ⟨(k, n'), lookup_mem rest k n' hl', rfl⟩
        exact (List.nodup_cons.mp (by simpa using hnd)).1 this
      exact ⟨n', by rw [lookup, if_neg hkr]; exact hl', hp'⟩

theorem fwdPath_ne_nil (m : Mapping) : ∀ (f : Nat) (cur : String), fwdPath m f cur ≠ [] := by
  intro f cur
  cases f with
  | zero => simp [fwdPath]
  | succ f =>
    cases hl : lookup m cur with
    | none => simp [fwdPath, hl]
    | some n =>
      cases hc : childrenOf n with
      | nil => simp [fwdPath, hl, hc]
      | cons c cs => simp [fwdPath, hl, hc]

theorem walkToLeaf_eq (m : Mapping) : ∀ (f : Nat) (cur : String),
    walkToLeaf m f cur = (fwdPath m f cur).getLast (fwdPath_ne_nil m f cur) := by
  intro f
  induction f with
  | zero => intro cur; rfl
  | succ f ih =>
    intro cur
    cases hl : lookup m cur with
    | none => simp [walkToLeaf, fwdPath, hl]
    | some n =>
      cases hc : childrenOf n with
      | nil => simp [walkToLeaf, fwdPath, hl, hc]
      | cons c cs =>
        simp only [walkToLeaf, fwdPath, hl, hc]
        rw [ih ((c :: cs).getLast (by simp))]
        exact (List.getLast_cons (fwdPath_ne_nil m f _)).symm

theorem walkBack_none (m : Mapping) : ∀ f : Nat, walkBack m f none = [] := by
  intro f
  cases f <;> rfl

theorem walkBack_succ (m : Mapping) (cur : String) (n : RawNode) (f : Nat)
    (hl : lookup m cur = some n) :
    walkBack m (f + 1) (some cur) = keptNode n ++ walkBack m f n.parent := by
  rw [walkBack, hl]
  cases hm : n.message with
  | none => simp [keptNode, hm]
  | some msg =>
    by_cases hk : keepMessage msg = true
    · simp [keptNode, hm, hk]
    · rw [Bool.not_eq_true] at hk
      simp [keptNode, hm, hk]

theorem keptNode_reverse (n : RawNode) : (keptNode n).reverse = keptNode n := by
  cases hm : n.message with
  | none => simp [keptNode, hm]
  | some msg =>
    by_cases hk : keepMessage msg = true
    · simp [keptNode, hm, hk]
    · rw [Bool.not_eq_true] at hk
      simp [keptNode, hm, hk]

theorem keptOf_cons_lookup (m : Mapping) (a : String) (n : RawNode) (ids : List String)
    (hl : lookup m a = some n) :
    keptOf m (a :: ids) = keptNode n ++ keptOf m ids := by
  rw [keptOf, List.filterMap_cons, hl]
  cases hm : n.message with
  | none => simp [keptNode, hm, keptOf]
  | some msg =>
    by_cases hk : keepMessage msg = true
    · simp [keptNode, hm, hk, keptOf]
    · rw [Bool.not_eq_true] at hk
      simp [keptNode, hm, hk, keptOf]

theorem mem_keptNode (n : RawNode) (msg : RawMessage) (h : msg ∈ keptNode n) :
    keepMessage msg = true := by
  cases hm : n.message with
  | none => simp [keptNode, hm] at h
  | some msg' =>
    by_cases hk : keepMessage msg' = true
    · simp [keptNode, hm, hk] at h
      subst h
      exact hk
    · rw [Bool.not_eq_true] at hk
      simp [keptNode, hm, hk] at h

theorem walkBack_keep (m : Mapping) : ∀ (f : Nat) (oc : Option String) (msg : RawMessage),
    msg ∈ walkBack m f oc → keepMessage msg = true := by
  intro f
  induction f with
  | zero =>
    intro oc msg h
    cases oc <;> simp [walkBack] at h
  | succ f ih =>
    intro oc msg h
    cases oc with
    | none => simp [walkBack] at h
    | some cur =>
      cases hl : lookup m cur with
      | none => rw [walkBack, hl] at h; simp at h
      | some n =>
        rw [walkBack_succ m cur n f hl] at h
        rcases List.mem_append.mp h with h | h
        · exact mem_keptNode n msg h
        · exact ih n.parent msg h

/-- The backward walk along a parent-linked id list collects exactly its kept
messages (leaf-first) and then continues past the first id's parent. -/
theorem walkBack_chain (m : Mapping) :
    ∀ (ids : List String) (prev : Option String), parentLinked m prev ids →
      ∀ (hne : ids ≠ []) (f : Nat), ids.length ≤ f →
      walkBack m f (some (ids.getLast hne)) =
        (keptOf m ids).reverse ++ walkBack m (f - ids.length) prev := by
  intro ids
  induction ids with
  | nil => intro prev _ hne; exact absurd rfl hne
  | cons a rest ih =>
    intro prev hpl hne f hf
    obtain ⟨⟨n, hla, hpar⟩, hpl'⟩ := hpl
    by_cases hr : rest = []
    · subst hr
      obtain ⟨f', rfl⟩ : ∃ f', f = f' + 1 := ⟨f - 1, by simp at hf; omega⟩
      show walkBack m (f' + 1) (some a) = _
      rw [walkBack_succ m a n f' hla, hpar,
        keptOf_cons_lookup m a n [] hla]
      simp [keptNode_reverse, keptOf]
    · have hgl : (a :: rest).getLast hne = rest.getLast hr := List.getLast_cons hr
      have hlen : rest.length ≤ f := by simp at hf; omega
      rw [hgl, ih (some a) hpl' hr f hlen]
      obtain ⟨g, hg⟩ : ∃ g, f - rest.length = g + 1 := ⟨f - rest.length - 1, by simp at hf; omega⟩
      rw [hg, walkBack_succ m a n g hla, hpar,
        keptOf_cons_lookup m a n rest hla,
        List.reverse_append, keptNode_reverse]
      have hfg : f - (a :: rest).length = g := by simp; omega
      rw [hfg, List.append_assoc]

/-- Under well-formedness the forward path is parent-linked back to the
start node's parent. -/
theorem fwdPath_parentLinked (m : Mapping) (hwf : WellFormed m) :
    ∀ (f : Nat) (cur : String) (n : RawNode), lookup m cur = some n →
      parentLinked m n.parent (fwdPath m f cur) := by
  intro f
  induction f with
  | zero =>
    intro cur n hl
    exact ⟨⟨n, hl, rfl⟩, trivial⟩
  | succ f ih =>
    intro cur n hl
    cases hc : childrenOf n with
    | nil =>
      have heq : fwdPath m (f + 1) cur = [cur] := by simp [fwdPath, hl, hc]
      rw [heq]
      exact ⟨⟨n, hl, rfl⟩, trivial⟩
    | cons c cs =>
      have heq : fwdPath m (f + 1) cur =
          cur :: fwdPath m f ((c :: cs).getLast (by simp)) := by
        simp [fwdPath, hl, hc]
      rw [heq]
      have hmem : (c :: cs).getLast (by simp) ∈ childrenOf n := by
        rw [hc]; exact List.getLast_mem _
      obtain ⟨cn, hlc, hpc⟩ := hwf cur n hl _ hmem
      refine ⟨⟨n, hl, rfl⟩, ?_⟩
      have hrec := ih _ cn hlc
      rw [hpc] at hrec
      exact hrec

/-- The characterization of `traverseTree` on a well-formed mapping: it
returns exactly the kept messages along the forward last-child path from the
root, in path order. -/
theorem traverseTree_path (m : Mapping) (r : String)
    (hnd : (m.map Prod.fst).Nodup) (hwf : WellFormed m)
    (hr : findRoot m = some r)
    (hlen : (fwdPath m m.length r).length ≤ m.length) :
    traverseTree m = keptOf m (fwdPath m m.length r) := by
  obtain ⟨n0, hl0, hp0⟩ := findRoot_lookup m r hnd hr
  have hne : ¬(m.length = 0) := by
    intro h
    rw [List.length_eq_zero] at h
    subst h
    exact Option.noConfusion hr
  have hpl := fwdPath_parentLinked m hwf m.length r n0 hl0
  rw [hp0] at hpl
  have hchain := walkBack_chain m (fwdPath m m.length r) none hpl
    (fwdPath_ne_nil m m.length r) m.length hlen
  have ht : traverseTree m =
      (walkBack m m.length (some (walkToLeaf m m.length r))).reverse := by
    rw [traverseTree, if_neg hne, hr]
  rw [ht, walkToLeaf_eq m m.length r, hchain, walkBack_none]
  rw [List.append_nil, List.reverse_reverse]

/-! ## Linear chains (claim C1) -/

/-- The node of a chain entry: parent is the previous id, the single child is
the next entry's id (none for the last), and the entry's message. -/
def chainNode (prev : Option String) (msg : RawMessage)
    (rest : List (String × RawMessage)) : RawNode :=
  ⟨prev, some (match rest with | [] => [] | (nid, _) :: _ => [nid]), some msg⟩

/-- A mapping that is a linear chain carrying the given messages under the
given ids, root first. -/
def mkChain : Option String → List (String × RawMessage) → Mapping
  | _, [] => []
  | prev, (i, msg) :: rest => (i, chainNode prev msg rest) :: mkChain (some i) rest

theorem mkChain_length : ∀ (l : List (String × RawMessage)) (prev : Option String),
    (mkChain prev l).length = l.length := by
  intro l
  induction l with
  | nil => intro prev; rfl
  | cons x rest ih =>
    intro prev
    obtain ⟨i, msg⟩ := x
    simp [mkChain, ih]

theorem lookup_append_right : ∀ (pre m2 : Mapping) (k : String),
    (∀ q ∈ pre, q.1 ≠ k) → lookup (pre ++ m2) k = lookup m2 k := by
  intro pre
  induction pre with
  | nil => intro m2 k _; rfl
  | cons e rest ih =>
    intro m2 k hq
    obtain ⟨k', n'⟩ := e
    rw [List.cons_append, lookup, if_neg (hq (k', n') (List.mem_cons_self _ _)),
      ih m2 k (fun q hq2 => hq q (List.mem_cons_of_mem _ hq2))]

/-- A `mkChain` segment embedded after an id-disjoint prefix is parent- and
child-linked, and each entry's node carries its message. -/
theorem chainFacts : ∀ (l : List (String × RawMessage)) (prev : Option String) (pre : Mapping),
    (l.map Prod.fst).Nodup →
    (∀ p ∈ l, ∀ q ∈ pre, p.1 ≠ q.1) →
    parentLinked (pre ++ mkChain prev l) prev (l.map Prod.fst) ∧
    childLinked (pre ++ mkChain prev l) (l.map Prod.fst) ∧
    (∀ p ∈ l, ∃ n, lookup (pre ++ mkChain prev l) p.1 = some n ∧
      n.message = some p.2) := by
  intro l
  induction l with
  | nil =>
    intro prev pre _ _
    exact ⟨trivial, trivial, fun p hp => absurd hp (List.not_mem_nil p)⟩
  | cons x rest ih =>
    intro prev pre hnd hdisj
    obtain ⟨i, msg⟩ := x
    have hnotrest : i ∉ rest.map Prod.fst := (List.nodup_cons.mp (by simpa using hnd)).1
    have hndrest : (rest.map Prod.fst).Nodup := (List.nodup_cons.mp (by simpa using hnd)).2
    have hm_eq : pre ++ mkChain prev ((i, msg) :: rest) =
        (pre ++ [(i, chainNode prev msg rest)]) ++ mkChain (some i) rest := by
      rw [mkChain]
      rw [List.append_assoc]
      rfl
    have hdisj' : ∀ p ∈ rest, ∀ q ∈ pre ++ [(i, chainNode prev msg rest)], p.1 ≠ q.1 := by
      intro p hp q hq
      rcases List.mem_append.mp hq with hq | hq
      · exact hdisj p (List.mem_cons_of_mem _ hp) q hq
      · rcases List.mem_cons.mp hq with rfl | hq
        · intro hpi
          exact hnotrest (List.mem_map.mpr ⟨p, hp, hpi⟩)
        · exact absurd hq (List.not_mem_nil q)
    obtain ⟨ihp, ihc, ihm⟩ := ih (some i) (pre ++ [(i, chainNode prev msg rest)]) hndrest hdisj'
    rw [← hm_eq] at ihp ihc ihm
    have hlook : lookup (pre ++ mkChain prev ((i, msg) :: rest)) i =
        some (chainNode prev msg rest) := by
      rw [lookup_append_right pre _ i
        (fun q hq => Ne.symm (hdisj (i, msg) (List.mem_cons_self _ _) q hq))]
      rw [mkChain, lookup, if_pos rfl]
    refine ⟨?_, ?_, ?_⟩
    · exact ⟨⟨chainNode prev msg rest, hlook, rfl⟩, ihp⟩
    · cases rest with
      | nil => exact ⟨chainNode prev msg [], hlook, rfl⟩
      | cons y rest' =>
        obtain ⟨j, msg2⟩ := y
        exact ⟨⟨chainNode prev msg ((j, msg2) :: rest'), j, [], hlook, rfl, rfl⟩, ihc⟩
    · intro p hp
      rcases List.mem_cons.mp hp with rfl | hp
      · exact ⟨chainNode prev msg rest, hlook, rfl⟩
      · exact ihm p hp

/-- The forward walk follows a child-linked id list from its head to its end. -/
theorem fwdPath_of_childLinked (m : Mapping) :
    ∀ (ids : List String) (hne : ids ≠ []), childLinked m ids →
      ∀ f, ids.length - 1 ≤ f → fwdPath m f (ids.head hne) = ids := by
  intro ids
  induction ids with
  | nil => intro hne; exact absurd rfl hne
  | cons a rest ih =>
    intro hne hcl f hf
    cases rest with
    | nil =>
      obtain ⟨n, hl, hc⟩ := hcl
      cases f with
      | zero => rfl
      | succ f => simp [fwdPath, hl, hc]
    | cons b rest' =>
      obtain ⟨⟨n, c, cs, hl, hc, hlast⟩, hcl'⟩ := hcl
      cases f with
      | zero => simp at hf
      | succ f =>
        have heq : fwdPath m (f + 1) a =
            a :: fwdPath m f ((c :: cs).getLast (by simp)) := by
          simp [fwdPath, hl, hc]
        rw [show ((a :: b :: rest').head hne) = a from rfl, heq, hlast]
        have hrec := ih (List.cons_ne_nil b rest') hcl' f (by simp at hf ⊢; omega)
        rw [show ((b :: rest').head (List.cons_ne_nil b rest')) = b from rfl] at hrec
        rw [hrec]

/-- Along an id list whose nodes carry the listed messages, all of which are
kept, the kept-message extraction returns exactly those messages. -/
theorem keptOf_chain (m : Mapping) : ∀ (l : List (String × RawMessage)),
    (∀ p ∈ l, ∃ n, lookup m p.1 = some n ∧ n.message = some p.2) →
    (∀ p ∈ l, keepMessage p.2 = true) →
    keptOf m (l.map Prod.fst) = l.map Prod.snd := by
  intro l
  induction l with
  | nil => intro _ _; rfl
  | cons x rest ih =>
    intro hpt hkeep
    obtain ⟨i, msg⟩ := x
    obtain ⟨n, hl, hm⟩ := hpt (i, msg) (List.mem_cons_self _ _)
    have hk : keepMessage msg = true := hkeep (i, msg) (List.mem_cons_self _ _)
    rw [List.map_cons, keptOf_cons_lookup m i n (rest.map Prod.fst) hl]
    rw [show keptNode n = [msg] by simp [keptNode, hm, hk]]
    rw [ih (fun p hp => hpt p (List.mem_cons_of_mem _ hp))
      (fun p hp => hkeep p (List.mem_cons_of_mem _ hp))]
    rfl

/-- A non-empty user- or assistant-authored text message (the shape claim C1
requires of chain messages). -/
def goodChainMsg (msg : RawMessage) : Bool :=
  (roleOfMsg msg == "user" || roleOfMsg msg == "assistant") &&
  (match msg.content with
   | some c =>
     (c.content_type == some "text") &&
     (match c.parts with
      | some parts => parts.any partHasContent
      | none => false)
   | none => false)

theorem keep_of_good (msg : RawMessage) (h : goodChainMsg msg = true) :
    keepMessage msg = true := by
  rw [goodChainMsg, Bool.and_eq_true] at h
  obtain ⟨hrole, hcont⟩ := h
  rw [Bool.or_eq_true, beq_iff_eq, beq_iff_eq] at hrole
  have hnotsys : (roleOfMsg msg == "system") = false := by
    rcases hrole with h | h <;> rw [h] <;> rfl
  have hnottool : (roleOfMsg msg == "tool") = false := by
    rcases hrole with h | h <;> rw [h] <;> rfl
  have hcontentOk : msgContentOk msg = true := by
    cases hc : msg.content with
    | none => rw [hc] at hcont; exact Bool.noConfusion hcont
    | some c =>
      rw [hc, Bool.and_eq_true] at hcont
      obtain ⟨hct, hparts⟩ := hcont
      cases hp : c.parts with
      | none => rw [hp] at hparts; exact Bool.noConfusion hparts
      | some parts =>
        rw [hp] at hparts
        simp at hparts
        simp [msgContentOk, hc, hp]
        exact Or.inl hparts
  simp [keepMessage, hnotsys, hnottool, hcontentOk]

/-- C1: tree reconstruction follows the deepest last-child branch.  For every
mapping that is a linear chain of N nodes with pairwise-distinct ids, each
carrying a non-empty user- or assistant-authored text message, `traverseTree`
yields exactly the N messages in root-to-leaf order; and for every
(well-formed, tree-shaped) mapping — in particular any mapping with branching
nodes — every reconstructed message is the message of a node on the path
obtained by repeatedly taking the last entry of each node's children list, so
no message of an earlier sibling branch ever appears. -/
theorem claim_c1 (l : List (String × RawMessage))
    (hl1 : (l.map Prod.fst).Nodup) (hl2 : ∀ p ∈ l, goodChainMsg p.2 = true)
    (m : Mapping) (r : String) (hm1 : (m.map Prod.fst).Nodup)
    (hm2 : wellFormedB m = true) (hm3 : findRoot m = some r)
    (hm4 : (fwdPath m m.length r).length ≤ m.length) :
    traverseTree (mkChain none l) = l.map Prod.snd ∧
    (∀ msg ∈ traverseTree m, ∃ i ∈ fwdPath m m.length r,
      ∃ n, lookup m i = some n ∧ n.message = some msg) := by
  constructor
  · cases l with
    | nil => rfl
    | cons x rest =>
      obtain ⟨i, msg⟩ := x
      obtain ⟨hpl, hcl, hpt⟩ := chainFacts ((i, msg) :: rest) none []
        hl1 (fun p _ q hq => absurd hq (List.not_mem_nil q))
      rw [List.nil_append] at hpl hcl hpt
      have hroot : findRoot (mkChain none ((i, msg) :: rest)) = some i := by
        rw [mkChain, findRoot,
          if_pos (show (chainNode none msg rest).parent = none from rfl)]
      have hlen : (mkChain none ((i, msg) :: rest)).length = ((i, msg) :: rest).length :=
        mkChain_length _ none
      have hids_ne : ((i, msg) :: rest).map Prod.fst ≠ [] := by simp
      have hfp : fwdPath (mkChain none ((i, msg) :: rest))
          (mkChain none ((i, msg) :: rest)).length i =
          ((i, msg) :: rest).map Prod.fst := by
        have := fwdPath_of_childLinked (mkChain none ((i, msg) :: rest))
          (((i, msg) :: rest).map Prod.fst) hids_ne hcl
          (mkChain none ((i, msg) :: rest)).length (by rw [hlen]; simp)
        rw [show ((((i, msg) :: rest).map Prod.fst).head hids_ne) = i from rfl] at this
        exact this
      have hleaf : walkToLeaf (mkChain none ((i, msg) :: rest))
          (mkChain none ((i, msg) :: rest)).length i =
          (((i, msg) :: rest).map Prod.fst).getLast hids_ne := by
        rw [walkToLeaf_eq]
        exact getLast_congr _ _ hfp (fwdPath_ne_nil _ _ i) hids_ne
      have hwb := walkBack_chain (mkChain none ((i, msg) :: rest))
        (((i, msg) :: rest).map Prod.fst) none hpl hids_ne
        (mkChain none ((i, msg) :: rest)).length (by rw [hlen]; simp)
      have hne0 : ¬((mkChain none ((i, msg) :: rest)).length = 0) := by rw [hlen]; simp
      have ht : traverseTree (mkChain none ((i, msg) :: rest)) =
          (walkBack (mkChain none ((i, msg) :: rest))
            (mkChain none ((i, msg) :: rest)).length
            (some (walkToLeaf (mkChain none ((i, msg) :: rest))
              (mkChain none ((i, msg) :: rest)).length i))).reverse := by
        rw [traverseTree, if_neg hne0, hroot]
      rw [ht, hleaf, hwb, walkBack_none, List.append_nil, List.reverse_reverse]
      exact keptOf_chain _ ((i, msg) :: rest) hpt
        (fun p hp => keep_of_good p.2 (hl2 p hp))
  · intro msg hmsg
    have hwf : WellFormed m := wellFormed_of_B m hm2
    rw [traverseTree_path m r hm1 hwf hm3 hm4] at hmsg
    obtain ⟨i, hi, hval⟩ := List.mem_filterMap.mp hmsg
    refine ⟨i, hi, ?_⟩
    cases hl : lookup m i with
    | none => rw [hl] at hval; simp at hval
    | some n =>
      rw [hl] at hval
      simp only [Option.some_bind] at hval
      cases hm' : n.message with
      | none => rw [hm'] at hval; simp at hval
      | some msg0 =>
        rw [hm'] at hval
        simp only [Option.some_bind] at hval
        by_cases hk : keepMessage msg0 = true
        · rw [if_pos hk] at hval
          injection hval with hval
          exact ⟨n, rfl, by rw [hm', hval]⟩
        · rw [if_neg hk] at hval
          exact Option.noConfusion hval

/-- C1 witness: a two-node chain and a three-node branching mapping. -/
def c1msgU : RawMessage :=
  ⟨some "m1", some ⟨some "user"⟩,
   some { emptyContent with content_type := some "text", parts := some [.str "hi"] },
   none, .null⟩

/-- Assistant counterpart of `c1msgU`. -/
def c1msgA : RawMessage :=
  ⟨some "m2", some ⟨some "assistant"⟩,
   some { emptyContent with content_type := some "text", parts := some [.str "yo"] },
   none, .null⟩

/-- The concrete chain for the C1 witness. -/
def c1chain : List (String × RawMessage) := [("a", c1msgU), ("b", c1msgA)]

/-- A branching mapping: the root has two children; the last child `c2` is
the regenerated branch. -/
def c1branch : Mapping :=
  [("r", ⟨none, some ["c1", "c2"], none⟩),
   ("c1", ⟨some "r", some [], some c1msgU⟩),
   ("c2", ⟨some "r", some [], some c1msgA⟩)]

/-- C1 witness: the theorem applied to the chain and branch above. -/
theorem claim_c1_witness :
    traverseTree (mkChain none c1chain) = c1chain.map Prod.snd ∧
    (∀ msg ∈ traverseTree c1branch, ∃ i ∈ fwdPath c1branch c1branch.length "r",
      ∃ n, lookup c1branch i = some n ∧ n.message = some msg) :=
  claim_c1 c1chain (by decide) (by decide) c1branch "r" (by decide) (by decide)
    (by decide) (by decide)

/-- C7: role filtering.  Every message in any reconstructed sequence is
neither a system message without the user-system flag nor a tool message;
and on a well-formed mapping, a node on the traversed path whose message is
system-authored with the flag set (and passes the content rules applied to
every message) is included. -/
theorem claim_c7 :
    (∀ (m : Mapping) (msg : RawMessage), msg ∈ traverseTree m →
      (roleOfMsg msg = "system" → userSysFlag msg = true) ∧ roleOfMsg msg ≠ "tool") ∧
    (∀ (m : Mapping) (r i : String) (n : RawNode) (msg : RawMessage),
      (m.map Prod.fst).Nodup → wellFormedB m = true → findRoot m = some r →
      (fwdPath m m.length r).length ≤ m.length →
      i ∈ fwdPath m m.length r → lookup m i = some n → n.message = some msg →
      roleOfMsg msg = "system" → userSysFlag msg = true → msgContentOk msg = true →
      msg ∈ traverseTree m) := by
  constructor
  · intro m msg h
    have hk : keepMessage msg = true := by
      by_cases hz : m.length = 0
      · rw [traverseTree, if_pos hz] at h
        simp at h
      · cases hr : findRoot m with
        | none =>
          rw [traverseTree, if_neg hz, hr] at h
          simp at h
        | some r =>
          have ht : traverseTree m =
              (walkBack m m.length (some (walkToLeaf m m.length r))).reverse := by
            rw [traverseTree, if_neg hz, hr]
          rw [ht, List.mem_reverse] at h
          exact walkBack_keep m m.length _ msg h
    constructor
    · intro hrole
      by_contra hflag
      rw [Bool.not_eq_true] at hflag
      simp [keepMessage, hrole, hflag] at hk
    · intro htool
      simp [keepMessage, htool] at hk
  · intro m r i n msg hnd hwfb hr hlen hi hl hm hrole hflag hcont
    have hwf := wellFormed_of_B m hwfb
    rw [traverseTree_path m r hnd hwf hr hlen]
    have hk : keepMessage msg = true := by
      simp [keepMessage, hrole, hflag, hcont]
    exact List.mem_filterMap.mpr ⟨i, hi, by rw [hl]; simp [hm, hk]⟩

/-- A user-created (flagged) system message with text content. -/
def c7sys : RawMessage :=
  ⟨some "s1", some ⟨some "system"⟩,
   some { emptyContent with content_type := some "text", parts := some [.str "note"] },
   some ⟨some true, none, none⟩, .null⟩

/-- A two-node mapping whose leaf carries the flagged system message. -/
def c7map : Mapping :=
  [("r", ⟨none, some ["s"], none⟩),
   ("s", ⟨some "r", some [], some c7sys⟩)]

/-- C7 witness: the flagged system message is reconstructed, and every
reconstructed message passes the role filter. -/
theorem claim_c7_witness :
    ((roleOfMsg c7sys = "system" → userSysFlag c7sys = true) ∧ roleOfMsg c7sys ≠ "tool") ∧
    c7sys ∈ traverseTree c7map :=
  ⟨claim_c7.1 c7map c7sys (by decide),
   claim_c7.2 c7map "r" "s" ⟨some "r", some [], some c7sys⟩ c7sys (by decide) (by decide)
     (by decide) (by decide) (by decide) (by decide) (by decide) (by decide) (by decide)
     (by decide)⟩

/-! ## Clusterer lemmas (claims C4, C5) -/

theorem foldl_inv {α β : Type} (f : β → α → β) (P : β → Prop) :
    ∀ (l : List α) (init : β), P init → (∀ b a, a ∈ l → P b → P (f b a)) →
      P (l.foldl f init) := by
  intro l
  induction l with
  | nil => intro init h _; exact h
  | cons x xs ih =>
    intro init h hstep
    exact ih (f init x) (hstep init x (List.mem_cons_self _ _) h)
      (fun b a ha hb => hstep b a (List.mem_cons_of_mem _ ha) hb)

theorem pairIdxs_mem (n : Nat) (ij : Nat × Nat) (h : ij ∈ pairIdxs n) :
    ij.1 < ij.2 ∧ ij.2 < n := by
  rw [pairIdxs] at h
  obtain ⟨sub, hsub, hmem⟩ := List.mem_flatten.mp h
  obtain ⟨i, hi, rfl⟩ := List.mem_map.mp hsub
  obtain ⟨j, hj, rfl⟩ := List.mem_map.mp hmem
  obtain ⟨hjr, hij⟩ := List.mem_filter.mp hj
  exact ⟨by simpa using hij, List.mem_range.mp hjr⟩

theorem bestPair_valid (clusters : List (List Nat)) (tk : List (List String))
    (s : ℚ) (ij : Nat × Nat) (h : bestPair clusters tk = (s, some ij)) :
    ij.1 < ij.2 ∧ ij.2 < clusters.length := by
  have hinv := foldl_inv
    (fun (acc : ℚ × Option (Nat × Nat)) ij =>
      let sim := maxPairwiseSimilarity (clusters.getD ij.1 []) (clusters.getD ij.2 []) tk
      if acc.1 < sim then (sim, some ij) else acc)
    (fun acc => ∀ p, acc.2 = some p → p.1 < p.2 ∧ p.2 < clusters.length)
    (pairIdxs clusters.length) (0, none)
    (fun p hp => Option.noConfusion hp)
    (fun b a ha hb => by
      dsimp only
      by_cases hlt : b.1 < maxPairwiseSimilarity (clusters.getD a.1 [])
          (clusters.getD a.2 []) tk
      · rw [if_pos hlt]
        intro p hp
        injection hp with hp
        subst hp
        exact pairIdxs_mem clusters.length a ha
      · rw [if_neg hlt]
        exact hb)
  rw [bestPair] at h
  exact hinv ij (by rw [h])

theorem erj_perm : ∀ (l : List (List Nat)) (k : Nat), k < l.length →
    (l.getD k [] ++ (l.eraseIdx k).flatten).Perm l.flatten := by
  intro l
  induction l with
  | nil => intro k hk; simp at hk
  | cons y t ih =>
    intro k hk
    cases k with
    | zero => simp
    | succ k =>
      have hk' : k < t.length := by simpa using hk
      show (t.getD k [] ++ (y :: t.eraseIdx k).flatten).Perm ((y :: t).flatten)
      simp only [List.flatten_cons]
      refine List.Perm.trans ?_ (List.Perm.append_left y (ih k hk'))
      rw [← List.append_assoc, ← List.append_assoc]
      exact (List.perm_append_comm).append_right _

theorem mergeAt_perm : ∀ (cl : List (List Nat)) (i j : Nat), i < j → j < cl.length →
    (mergeAt cl i j).flatten.Perm cl.flatten := by
  intro cl
  induction cl with
  | nil => intro i j _ hj; simp at hj
  | cons x rest ih =>
    intro i j hij hj
    obtain ⟨j', rfl⟩ : ∃ j', j = j' + 1 := ⟨j - 1, by omega⟩
    cases i with
    | zero =>
      have hj' : j' < rest.length := by simpa using hj
      have hm : mergeAt (x :: rest) 0 (j' + 1) =
          (x ++ rest.getD j' []) :: rest.eraseIdx j' := rfl
      rw [hm]
      simp only [List.flatten_cons]
      rw [List.append_assoc]
      exact List.Perm.append_left x (erj_perm rest j' hj')
    | succ i =>
      have hm : mergeAt (x :: rest) (i + 1) (j' + 1) = x :: mergeAt rest i j' := rfl
      rw [hm]
      simp only [List.flatten_cons]
      exact List.Perm.append_left x (ih i j' (by omega) (by simpa using hj))

theorem aggLoop_perm (tk : List (List String)) :
    ∀ (fuel : Nat) (cl : List (List Nat)), (aggLoop tk fuel cl).flatten.Perm cl.flatten := by
  intro fuel
  induction fuel with
  | zero => intro cl; exact List.Perm.refl _
  | succ fuel ih =>
    intro cl
    rw [aggLoop]
    cases hbp : bestPair cl tk with
    | mk s opt =>
      cases opt with
      | none => exact List.Perm.refl _
      | some ij =>
        have hred : (match (s, some ij) with
            | (_, none) => cl
            | (bestSim, some ij) =>
              if bestSim < SIMILARITY_THRESHOLD then cl
              else aggLoop tk fuel (mergeAt cl ij.1 ij.2)) =
            (if s < SIMILARITY_THRESHOLD then cl
             else aggLoop tk fuel (mergeAt cl ij.1 ij.2)) := rfl
        rw [hred]
        by_cases hs : s < SIMILARITY_THRESHOLD
        · rw [if_pos hs]
        · rw [if_neg hs]
          obtain ⟨hij, hjl⟩ := bestPair_valid cl tk s ij hbp
          exact (ih (mergeAt cl ij.1 ij.2)).trans (mergeAt_perm cl ij.1 ij.2 hij hjl)

theorem map_singleton_flatten : ∀ l : List Nat, (l.map (fun i => [i])).flatten = l := by
  intro l
  induction l with
  | nil => rfl
  | cons x t ih => simp [ih]

theorem initClusters_flatten (n : Nat) : (initClusters n).flatten = List.range n := by
  rw [initClusters, map_singleton_flatten]

theorem perm_flatten {α : Type} {l₁ l₂ : List (List α)} (h : l₁.Perm l₂) :
    l₁.flatten.Perm l₂.flatten := by
  induction h with
  | nil => exact List.Perm.refl _
  | cons x _ ih =>
    simp only [List.flatten_cons]
    exact List.Perm.append_left x ih
  | swap x y l =>
    simp only [List.flatten_cons]
    rw [← List.append_assoc, ← List.append_assoc]
    exact (List.perm_append_comm).append_right _
  | trans _ _ ih1 ih2 => exact ih1.trans ih2

theorem small_filter_eq (merged : List (List Nat)) :
    merged.filter (fun c => decide (c.length < MIN_CLUSTER_SIZE)) =
      merged.filter (fun c => !decide (MIN_CLUSTER_SIZE ≤ c.length)) := by
  apply List.filter_congr
  intro c _
  by_cases h : MIN_CLUSTER_SIZE ≤ c.length
  · simp [h, Nat.not_lt.mpr h]
  · simp [h, Nat.lt_of_not_le h]

/-- The zeta-reduced shape of `agglomerativeCluster`. -/
theorem agg_unfold (n : Nat) (tk : List (List String)) :
    agglomerativeCluster n tk =
      (if ((mergedOf tk n).filter (fun c => decide (c.length < MIN_CLUSTER_SIZE))).length ≠ 0
       then (mergedOf tk n).filter (fun c => decide (MIN_CLUSTER_SIZE ≤ c.length)) ++
         [((mergedOf tk n).filter (fun c => decide (c.length < MIN_CLUSTER_SIZE))).flatten]
       else (mergedOf tk n).filter (fun c => decide (MIN_CLUSTER_SIZE ≤ c.length))) := rfl

theorem agg_flatten_perm (n : Nat) (tk : List (List String)) :
    (agglomerativeCluster n tk).flatten.Perm (List.range n) := by
  have hm : (mergedOf tk n).flatten.Perm (List.range n) := by
    rw [mergedOf]
    exact (aggLoop_perm tk n (initClusters n)).trans (by rw [initClusters_flatten])
  have hsplit := List.filter_append_perm
    (fun c => decide (MIN_CLUSTER_SIZE ≤ c.length)) (mergedOf tk n)
  rw [agg_unfold]
  by_cases hs : ((mergedOf tk n).filter
      (fun c => decide (c.length < MIN_CLUSTER_SIZE))).length ≠ 0
  · rw [if_pos hs, List.flatten_append]
    simp only [List.flatten_cons, List.flatten_nil, List.append_nil]
    refine List.Perm.trans ?_ hm
    rw [small_filter_eq]
    exact (List.flatten_append _ _ ▸ perm_flatten hsplit)
  · rw [if_neg hs]
    refine List.Perm.trans ?_ hm
    have hempty : (mergedOf tk n).filter
        (fun c => !decide (MIN_CLUSTER_SIZE ≤ c.length)) = [] := by
      rw [← small_filter_eq]
      simpa using hs
    have := perm_flatten hsplit
    rw [List.flatten_append, hempty] at this
    simpa using this

theorem flatten_map_map (g : Nat → Conversation) : ∀ L : List (List Nat),
    (L.map (fun c => c.map g)).flatten = L.flatten.map g := by
  intro L
  induction L with
  | nil => rfl
  | cons c cs ih =>
    rw [List.map_cons, List.flatten_cons, List.flatten_cons, List.map_append, ih]

theorem map_range_getD (d : Conversation) : ∀ l : List Conversation,
    (List.range l.length).map (fun i => l.getD i d) = l := by
  intro l
  induction l with
  | nil => rfl
  | cons x t ih =>
    rw [List.length_cons, List.range_succ_eq_map, List.map_cons, List.map_map]
    show x :: (List.range t.length).map (fun i => (x :: t).getD (i + 1) d) = x :: t
    rw [show (fun i => (x :: t).getD (i + 1) d) = fun i => t.getD i d from rfl, ih]

/-- C4: clustering returns a partition.  The concatenation of the output
clusters' member lists is a permutation of the input conversation list (no
conversation dropped or duplicated), and with fewer than two conversations
the result is one "All Conversations" cluster holding everything. -/
theorem claim_c4 (logf : ℚ → ℚ) (convs : List Conversation) :
    ((clusterConversations logf convs).map Cluster.conversations).flatten.Perm convs ∧
    (convs.length < 2 →
      clusterConversations logf convs = [⟨"All Conversations", convs, []⟩]) := by
  by_cases h2 : convs.length < 2
  · have hout : clusterConversations logf convs = [⟨"All Conversations", convs, []⟩] := by
      rw [clusterConversations, if_pos h2]
    constructor
    · rw [hout, List.map_cons, List.map_nil, List.flatten_cons, List.flatten_nil,
        List.append_nil]
    · intro _
      exact hout
  · constructor
    · rw [clusterConversations, if_neg h2]
      simp only
      rw [List.map_map]
      rw [show (Cluster.conversations ∘ labelCluster convs (topKeywordsFull logf convs)) =
        fun c => c.map (fun i => convs.getD i emptyConv) from rfl]
      rw [flatten_map_map]
      have hperm := (agg_flatten_perm convs.length (topKeywordsFull logf convs)).map
        (fun i => convs.getD i emptyConv)
      rw [map_range_getD emptyConv convs] at hperm
      exact hperm
    · intro h
      exact absurd h h2

/-- C4 has no hypothesis beyond its binders, but the second conjunct is an
implication; this applies it at the empty corpus. -/
theorem claim_c4_witness :
    ((clusterConversations (fun _ => 0) []).map Cluster.conversations).flatten.Perm
      ([] : List Conversation) ∧
    clusterConversations (fun _ => 0) [] = [⟨"All Conversations", [], []⟩] :=
  ⟨(claim_c4 (fun _ => 0) []).1, (claim_c4 (fun _ => 0) []).2 (by decide)⟩

/-! ## Claim C5 (corrected): residual cluster handling -/

/-- Two keyword-disjoint single conversations for the C5 counterexample. -/
def c5convA : Conversation := ⟨"1", "python", none, none, [], []⟩

/-- Second conversation of the C5 counterexample. -/
def c5convB : Conversation := ⟨"2", "rust", none, none, [], []⟩

attribute [local semireducible] Rat.mul Rat.inv Rat.add Rat.sub Rat.ofScientific in
/-- C5 counterexample: with two lexically disjoint conversations no merge
reaches the similarity threshold, both singleton clusters are pooled into
the one residual cluster — but that pooled cluster is labeled through the
same keyword labeling as every other cluster ("Your Python Projects" here),
not "General" as the claim states.  (The arithmetic of the run is evaluated
in the kernel; the Batteries rational operations are restored to their
default reducibility for that evaluation.) -/
theorem claim_c5_counterexample :
    (mergedOf (topKeywordsFull (fun _ => 0) [c5convA, c5convB]) 2).filter
      (fun c => decide (c.length < MIN_CLUSTER_SIZE)) = [[0], [1]] ∧
    clusterConversations (fun _ => 0) [c5convA, c5convB] =
      [⟨"Your Python Projects", [c5convA, c5convB], ["python", "rust"]⟩] ∧
    "Your Python Projects" ≠ "General" := by
  refine ⟨by decide, by decide, by decide⟩

/-- C5 amended: after merging stops, all clusters with fewer than 2 members
are pooled into exactly one residual cluster, appended after the real
clusters (none discarded); every other output cluster has at least 2
members; and the residual cluster is labeled by the same keyword labeling as
any other cluster, which yields "General" exactly when the pooled cluster
has no aggregate keywords. -/
theorem claim_c5 (logf : ℚ → ℚ) (convs : List Conversation) (h2 : 2 ≤ convs.length)
    (tk : List (List String)) (htk : tk = topKeywordsFull logf convs)
    (merged : List (List Nat)) (hmg : merged = mergedOf tk convs.length)
    (singles : List (List Nat))
    (hsi : singles = merged.filter (fun c => decide (c.length < MIN_CLUSTER_SIZE)))
    (hs : singles ≠ []) :
    clusterConversations logf convs =
      (merged.filter (fun c => decide (MIN_CLUSTER_SIZE ≤ c.length))).map
        (labelCluster convs tk) ++ [labelCluster convs tk singles.flatten] ∧
    (clusterConversations logf convs).getLast? =
      some (labelCluster convs tk singles.flatten) ∧
    (∀ cl ∈ (clusterConversations logf convs).dropLast,
      MIN_CLUSTER_SIZE ≤ cl.conversations.length) ∧
    (labelCluster convs tk singles.flatten).label =
      generateLabel (getClusterKeywords singles.flatten tk) ∧
    (getClusterKeywords singles.flatten tk = [] →
      (labelCluster convs tk singles.flatten).label = "General") := by
  subst htk
  subst hmg
  subst hsi
  have hlen0 : ((mergedOf (topKeywordsFull logf convs) convs.length).filter
      (fun c => decide (c.length < MIN_CLUSTER_SIZE))).length ≠ 0 := by
    intro h
    exact hs (List.length_eq_zero.mp h)
  have hagg := agg_unfold convs.length (topKeywordsFull logf convs)
  rw [if_pos hlen0] at hagg
  have hout : clusterConversations logf convs =
      ((mergedOf (topKeywordsFull logf convs) convs.length).filter
        (fun c => decide (MIN_CLUSTER_SIZE ≤ c.length))).map
          (labelCluster convs (topKeywordsFull logf convs)) ++
      [labelCluster convs (topKeywordsFull logf convs)
        ((mergedOf (topKeywordsFull logf convs) convs.length).filter
          (fun c => decide (c.length < MIN_CLUSTER_SIZE))).flatten] := by
    rw [clusterConversations, if_neg (Nat.not_lt.mpr h2)]
    show (agglomerativeCluster convs.length (topKeywordsFull logf convs)).map
        (labelCluster convs (topKeywordsFull logf convs)) = _
    rw [hagg, List.map_append, List.map_cons, List.map_nil]
  refine ⟨hout, ?_, ?_, rfl, ?_⟩
  · rw [hout]
    exact List.getLast?_concat _
  · rw [hout, List.dropLast_concat]
    intro cl hcl
    obtain ⟨c, hc, rfl⟩ := List.mem_map.mp hcl
    have hc2 := List.of_mem_filter hc
    rw [decide_eq_true_eq] at hc2
    show MIN_CLUSTER_SIZE ≤ (c.map (fun i => convs.getD i emptyConv)).length
    rw [List.length_map]
    exact hc2
  · intro hk
    show generateLabel (getClusterKeywords _ (topKeywordsFull logf convs)) = "General"
    rw [hk]
    rfl

attribute [local semireducible] Rat.mul Rat.inv Rat.add Rat.sub Rat.ofScientific in
/-- C5 witness: the amended theorem applied to the counterexample corpus. -/
theorem claim_c5_witness :
    clusterConversations (fun _ => 0) [c5convA, c5convB] =
      ((mergedOf (topKeywordsFull (fun _ => 0) [c5convA, c5convB]) 2).filter
        (fun c => decide (MIN_CLUSTER_SIZE ≤ c.length))).map
          (labelCluster [c5convA, c5convB]
            (topKeywordsFull (fun _ => 0) [c5convA, c5convB])) ++
      [labelCluster [c5convA, c5convB]
        (topKeywordsFull (fun _ => 0) [c5convA, c5convB])
        ([[0], [1]] : List (List Nat)).flatten] ∧
    (clusterConversations (fun _ => 0) [c5convA, c5convB]).getLast? =
      some (labelCluster [c5convA, c5convB]
        (topKeywordsFull (fun _ => 0) [c5convA, c5convB])
        ([[0], [1]] : List (List Nat)).flatten) ∧
    (∀ cl ∈ (clusterConversations (fun _ => 0) [c5convA, c5convB]).dropLast,
      MIN_CLUSTER_SIZE ≤ cl.conversations.length) ∧
    (labelCluster [c5convA, c5convB]
      (topKeywordsFull (fun _ => 0) [c5convA, c5convB])
      ([[0], [1]] : List (List Nat)).flatten).label =
      generateLabel (getClusterKeywords ([[0], [1]] : List (List Nat)).flatten
        (topKeywordsFull (fun _ => 0) [c5convA, c5convB])) ∧
    (getClusterKeywords ([[0], [1]] : List (List Nat)).flatten
        (topKeywordsFull (fun _ => 0) [c5convA, c5convB]) = [] →
      (labelCluster [c5convA, c5convB]
        (topKeywordsFull (fun _ => 0) [c5convA, c5convB])
        ([[0], [1]] : List (List Nat)).flatten).label = "General") :=
  claim_c5 (fun _ => 0) [c5convA, c5convB] (by decide)
    (topKeywordsFull (fun _ => 0) [c5convA, c5convB]) rfl
    (mergedOf (topKeywordsFull (fun _ => 0) [c5convA, c5convB]) 2) rfl
    [[0], [1]] (by decide) (by decide)
